import Mathlib

/- Verification of the DCP (Disciplined Convex Programming) analysis core of
   the cvxpy expression library: shape, sign and curvature inference over
   expression trees.  The analysis engine is embedded shallowly; because the
   repository snapshot carries only the DCP tutorial documentation, the
   engine's definitions are modelled from the specification's words. -/

namespace DCP

/-- Modelled from the spec: sign lattice {POSITIVE, NEGATIVE, ZERO, UNKNOWN}
    for the entrywise sign of an expression. -/
inductive Sign where
  | POSITIVE
  | NEGATIVE
  | ZERO
  | UNKNOWN
deriving DecidableEq, Repr, Inhabited

/-- Modelled from the spec: curvature lattice
    {CONSTANT, AFFINE, CONVEX, CONCAVE, UNKNOWN}. -/
inductive Curvature where
  | CONSTANT
  | AFFINE
  | CONVEX
  | CONCAVE
  | UNKNOWN
deriving DecidableEq, Repr, Inhabited

/-- Modelled from the spec: per-argument monotonicity of an atom, possibly
    conditioned on the argument's sign. -/
inductive Monotonicity where
  | INCREASING
  | DECREASING
  | NONMONOTONE
deriving DecidableEq, Repr, Inhabited

open Sign Curvature Monotonicity

/-- Modelled from the spec: multiplication/division sign table — ZERO
    dominates; else POSITIVE when both signs known and equal, NEGATIVE when
    both known and different, UNKNOWN otherwise. -/
def sign_mul : Sign → Sign → Sign
  | ZERO, _ => ZERO
  | _, ZERO => ZERO
  | POSITIVE, POSITIVE => POSITIVE
  | NEGATIVE, NEGATIVE => POSITIVE
  | POSITIVE, NEGATIVE => NEGATIVE
  | NEGATIVE, POSITIVE => NEGATIVE
  | _, _ => Sign.UNKNOWN

/-- Modelled from the spec: negation of a sign (used by subtraction). -/
def sign_neg : Sign → Sign
  | POSITIVE => NEGATIVE
  | NEGATIVE => POSITIVE
  | ZERO => ZERO
  | Sign.UNKNOWN => Sign.UNKNOWN

/-- Modelled from the spec: addition sign table — like signs are kept, ZERO
    is an identity, any other combination gives UNKNOWN. -/
def sign_add : Sign → Sign → Sign
  | ZERO, s => s
  | s, ZERO => s
  | POSITIVE, POSITIVE => POSITIVE
  | NEGATIVE, NEGATIVE => NEGATIVE
  | _, _ => Sign.UNKNOWN

/-- Modelled from the spec: monotonicity induced by a computed sign — a
    sign-dependent atom (square, or multiplication by a constant of that
    sign) is increasing on a nonnegative sign, decreasing on a negative one,
    and nonmonotone when the sign is unknown. -/
def monoOfSign : Sign → Monotonicity
  | POSITIVE => INCREASING
  | ZERO => INCREASING
  | NEGATIVE => DECREASING
  | Sign.UNKNOWN => NONMONOTONE

/-- Test whether a curvature is the CONSTANT tag. -/
def isCONST : Curvature → Bool
  | CONSTANT => true
  | _ => false

/-- Modelled from the spec: a child slot acceptable to the affine rule —
    the child is AFFINE or CONSTANT. -/
def affSlot : Curvature → Bool
  | CONSTANT => true
  | AFFINE => true
  | _ => false

/-- Modelled from the spec: a child slot acceptable to the convex rule —
    CONVEX child with INCREASING monotonicity, CONCAVE child with
    DECREASING monotonicity, or an AFFINE/CONSTANT child. -/
def cvxSlot : Curvature × Monotonicity → Bool
  | (CONSTANT, _) => true
  | (AFFINE, _) => true
  | (CONVEX, INCREASING) => true
  | (CONCAVE, DECREASING) => true
  | _ => false

/-- Modelled from the spec: a child slot acceptable to the concave rule,
    dual to `cvxSlot`. -/
def ccvSlot : Curvature × Monotonicity → Bool
  | (CONSTANT, _) => true
  | (AFFINE, _) => true
  | (CONCAVE, INCREASING) => true
  | (CONVEX, DECREASING) => true
  | _ => false

/-- Base curvatures compatible with the convex composition rule (CONSTANT
    and AFFINE bases are convex by the subtype chain). -/
def cvxBase : Curvature → Bool
  | CONSTANT => true
  | AFFINE => true
  | CONVEX => true
  | _ => false

/-- Base curvatures compatible with the concave composition rule. -/
def ccvBase : Curvature → Bool
  | CONSTANT => true
  | AFFINE => true
  | CONCAVE => true
  | _ => false

/-- Modelled from the spec: the curvature engine's composition rule.  Given
    an atom's base curvature and, per argument, the child's curvature paired
    with the atom's monotonicity in that argument (already resolved at the
    child's computed sign), apply in order: the constant rule, the affine
    rule, the convex rule, the concave rule, and otherwise return UNKNOWN. -/
def curvApply (base : Curvature) (args : List (Curvature × Monotonicity)) :
    Curvature :=
  if isCONST base && args.all (fun p => isCONST p.1) then CONSTANT
  else if affSlot base && args.all (fun p => affSlot p.1) then AFFINE
  else if cvxBase base && args.all cvxSlot then CONVEX
  else if ccvBase base && args.all ccvSlot then CONCAVE
  else Curvature.UNKNOWN

/-- Modelled from the spec: the expression tree built by the user from
    leaves (constants, parameters, variables) and the atom catalogue
    (arithmetic operators, square, sqrt, L2 norm, sum, vertical stacking).
    A constant leaf carries its grid of rational values; a parameter leaf a
    declared sign; a variable leaf only its shape. -/
inductive EExpr where
  | const (g : List (List ℚ))
  | param (r c : ℕ) (s : Sign)
  | var (r c : ℕ)
  | add (a b : EExpr)
  | sub (a b : EExpr)
  | mul (a b : EExpr)
  | div (a b : EExpr)
  | square (a : EExpr)
  | sqrt (a : EExpr)
  | norm2 (a : EExpr)
  | sumAll (a : EExpr)
  | sumAxis (axis : Bool) (a : EExpr)
  | vstack2 (a b : EExpr)
deriving DecidableEq, Repr

/-- Modelled from the spec: the fully annotated immutable node returned by
    `build` — a cached shape together with per-entry sign and curvature
    grids. -/
structure Ann where
  rows : ℕ
  cols : ℕ
  sgn : List (List Sign)
  crv : List (List Curvature)
deriving DecidableEq, Repr

/-- Modelled from the spec: the error taxonomy — incompatible shapes
    (carrying the operator name and the two conflicting shapes) and invalid
    operands for multiplication/division. -/
inductive BuildError where
  | dimensionError (op : String) (s1 s2 : ℕ × ℕ)
  | invalidOperandError (op : String)
deriving DecidableEq, Repr

/-- A uniform grid of a given shape. -/
def uniformG (r c : ℕ) (v : α) : List (List α) :=
  List.replicate r (List.replicate c v)

/-- Entrywise combination of two grids. -/
def zipG (f : α → β → γ) (g1 : List (List α)) (g2 : List (List β)) :
    List (List γ) :=
  List.zipWith (List.zipWith f) g1 g2

/-- Entrywise map over a grid. -/
def mapG (f : α → β) (g : List (List α)) : List (List β) :=
  g.map (List.map f)

/-- Top-left entry of a grid (the value of a scalar node). -/
def entry00 [Inhabited α] (g : List (List α)) : α :=
  (g.headD []).headD default

/-- Flatten a grid into the list of its entries. -/
def entriesG (g : List (List α)) : List α :=
  g.flatten

/-- Helper for `transposeG`: prepend a column to a list of rows. -/
def zipConsG : List α → List (List α) → List (List α)
  | [], _ => []
  | a :: as, [] => [a] :: zipConsG as []
  | a :: as, r :: rs => (a :: r) :: zipConsG as rs

/-- Transpose of a rectangular grid. -/
def transposeG : List (List α) → List (List α)
  | [] => []
  | r :: rs => zipConsG r (transposeG rs)

/-- The `is_scalar` accessor: shape equals (1,1). -/
def isScalarAnn (a : Ann) : Bool :=
  decide (a.rows = 1) && decide (a.cols = 1)

/-- Modelled from the spec: an operand is CONSTANT when every entry of its
    curvature grid is CONSTANT. -/
def isConstAnn (a : Ann) : Bool :=
  a.crv.all (fun row => row.all isCONST)

/-- Modelled from the spec: sign of a constant literal, derived exactly
    from its value compared to zero. -/
def signConst (q : ℚ) : Sign :=
  if q = 0 then ZERO else if 0 < q then POSITIVE else NEGATIVE

/-- Modelled from the spec: sign-and-curvature combination for one entry of
    a product (or quotient): the sign table `sign_mul`, and the affine
    composition rule where the monotonicity in each argument is induced by
    the other operand's (constant) sign. -/
def mulEntry (p1 p2 : Sign × Curvature) : Sign × Curvature :=
  (sign_mul p1.1 p2.1,
    curvApply AFFINE [(p1.2, monoOfSign p2.1), (p2.2, monoOfSign p1.1)])

/-- Modelled from the spec: sign of a sum of entries (ZERO is the identity
    of the addition sign table). -/
def sumSign (ss : List Sign) : Sign :=
  ss.foldl sign_add ZERO

/-- Modelled from the spec: curvature of a sum of entries — the affine
    composition rule with INCREASING monotonicity in every argument. -/
def sumCurv (cs : List Curvature) : Curvature :=
  curvApply AFFINE (cs.map (fun c => (c, INCREASING)))

/-- Sum a list of sign/curvature entries (used for reductions and matrix
    product entries). -/
def sumEntries (ps : List (Sign × Curvature)) : Sign × Curvature :=
  (sumSign (ps.map Prod.fst), sumCurv (ps.map Prod.snd))

/-- Modelled from the spec: elementwise-binary node builder shared by
    addition and subtraction — shapes must be equal or exactly one operand
    scalar (which broadcasts); otherwise a DimensionError carrying the
    operator name and the two shapes. -/
def ewNode (op : String) (fs : Sign → Sign → Sign)
    (fc : Curvature → Curvature → Curvature) (a b : Ann) :
    Except BuildError Ann :=
  if isScalarAnn a && !isScalarAnn b then
    .ok ⟨b.rows, b.cols,
      mapG (fs (entry00 a.sgn)) b.sgn, mapG (fc (entry00 a.crv)) b.crv⟩
  else if isScalarAnn b && !isScalarAnn a then
    .ok ⟨a.rows, a.cols,
      mapG (fun s => fs s (entry00 b.sgn)) a.sgn,
      mapG (fun c => fc c (entry00 b.crv)) a.crv⟩
  else if decide (a.rows = b.rows) && decide (a.cols = b.cols) then
    .ok ⟨a.rows, a.cols, zipG fs a.sgn b.sgn, zipG fc a.crv b.crv⟩
  else
    .error (.dimensionError op (a.rows, a.cols) (b.rows, b.cols))

/-- Modelled from the spec: curvature combiner for addition (affine atom,
    increasing in both arguments). -/
def addCurv (c1 c2 : Curvature) : Curvature :=
  curvApply AFFINE [(c1, INCREASING), (c2, INCREASING)]

/-- Modelled from the spec: curvature combiner for subtraction (affine
    atom, increasing in the first and decreasing in the second argument). -/
def subCurv (c1 c2 : Curvature) : Curvature :=
  curvApply AFFINE [(c1, INCREASING), (c2, DECREASING)]

/-- Modelled from the spec: the addition node builder. -/
def addNode (a b : Ann) : Except BuildError Ann :=
  ewNode "+" sign_add addCurv a b

/-- Modelled from the spec: the subtraction node builder (the subtracted
    operand's sign is negated before the addition table applies). -/
def subNode (a b : Ann) : Except BuildError Ann :=
  ewNode "-" (fun s1 s2 => sign_add s1 (sign_neg s2)) subCurv a b

/-- Pair the sign and curvature grids of a node into one grid of entries. -/
def pairG (a : Ann) : List (List (Sign × Curvature)) :=
  zipG Prod.mk a.sgn a.crv

/-- One entry of the matrix product: the sum of the entrywise products of a
    row of the left grid and a column of the right grid. -/
def dotEntry (row col : List (Sign × Curvature)) : Sign × Curvature :=
  sumEntries (List.zipWith mulEntry row col)

/-- Modelled from the spec: the multiplication node builder.  At least one
    operand must be CONSTANT (otherwise InvalidOperandError at construction
    time); a scalar operand multiplies entrywise, otherwise the standard
    matrix-product dimension rule applies and mismatched inner dimensions
    are a DimensionError. -/
def mulNode (a b : Ann) : Except BuildError Ann :=
  if !isConstAnn a && !isConstAnn b then
    .error (.invalidOperandError "*")
  else if isScalarAnn a then
    .ok ⟨b.rows, b.cols,
      mapG (fun p => (mulEntry (entry00 (pairG a)) p).1) (pairG b),
      mapG (fun p => (mulEntry (entry00 (pairG a)) p).2) (pairG b)⟩
  else if isScalarAnn b then
    .ok ⟨a.rows, a.cols,
      mapG (fun p => (mulEntry p (entry00 (pairG b))).1) (pairG a),
      mapG (fun p => (mulEntry p (entry00 (pairG b))).2) (pairG a)⟩
  else if decide (a.cols = b.rows) then
    .ok ⟨a.rows, b.cols,
      (pairG a).map (fun row =>
        (transposeG (pairG b)).map (fun col => (dotEntry row col).1)),
      (pairG a).map (fun row =>
        (transposeG (pairG b)).map (fun col => (dotEntry row col).2))⟩
  else
    .error (.dimensionError "*" (a.rows, a.cols) (b.rows, b.cols))

/-- Modelled from the spec: the division node builder — the right operand
    must be a scalar CONSTANT (otherwise InvalidOperandError); the sign and
    curvature rules are those of multiplication (the reciprocal of a
    constant has the constant's sign). -/
def divNode (a b : Ann) : Except BuildError Ann :=
  if !(isScalarAnn b && isConstAnn b) then
    .error (.invalidOperandError "/")
  else
    .ok ⟨a.rows, a.cols,
      mapG (fun p => (mulEntry p (entry00 (pairG b))).1) (pairG a),
      mapG (fun p => (mulEntry p (entry00 (pairG b))).2) (pairG a)⟩

/-- Modelled from the spec: sign of an entry of `square` — ZERO stays ZERO,
    any other sign gives POSITIVE. -/
def squareSign : Sign → Sign
  | ZERO => ZERO
  | _ => POSITIVE

/-- Modelled from the spec: the elementwise `square` atom — CONVEX base
    curvature with sign-dependent monotonicity. -/
def squareNode (a : Ann) : Ann :=
  ⟨a.rows, a.cols, mapG squareSign a.sgn,
    mapG (fun p => curvApply CONVEX [(p.2, monoOfSign p.1)]) (pairG a)⟩

/-- Modelled from the spec: the elementwise `sqrt` atom — CONCAVE base
    curvature, INCREASING monotonicity, nonnegative result sign. -/
def sqrtNode (a : Ann) : Ann :=
  ⟨a.rows, a.cols, mapG squareSign a.sgn,
    mapG (fun c => curvApply CONCAVE [(c, INCREASING)]) a.crv⟩

/-- Modelled from the spec: the full-argument L2 norm atom — a reduction to
    a scalar, CONVEX base curvature, NONMONOTONE in every entry, POSITIVE
    result sign. -/
def norm2Node (a : Ann) : Ann :=
  ⟨1, 1, [[POSITIVE]],
    [[curvApply CONVEX ((entriesG a.crv).map (fun c => (c, NONMONOTONE)))]]⟩

/-- Modelled from the spec: the full-argument `sum` reduction — result
    shape (1,1) regardless of the input's dimensions. -/
def sumNode (a : Ann) : Ann :=
  ⟨1, 1, [[sumSign (entriesG a.sgn)]], [[sumCurv (entriesG a.crv)]]⟩

/-- Modelled from the spec: the per-axis `sum` reduction — the result shape
    drops the reduced axis (axis `false` collapses the rows, axis `true`
    the columns). -/
def sumAxisNode (axis : Bool) (a : Ann) : Ann :=
  if axis then
    ⟨a.rows, 1, a.sgn.map (fun row => [sumSign row]),
      a.crv.map (fun row => [sumCurv row])⟩
  else
    ⟨1, a.cols, [(transposeG a.sgn).map sumSign],
      [(transposeG a.crv).map sumCurv]⟩

/-- Modelled from the spec: binary vertical stacking — the column counts
    must agree (otherwise DimensionError), the row counts add, and the
    entry grids are concatenated. -/
def vstack2Node (a b : Ann) : Except BuildError Ann :=
  if decide (a.cols = b.cols) then
    .ok ⟨a.rows + b.rows, a.cols, a.sgn ++ b.sgn, a.crv ++ b.crv⟩
  else
    .error (.dimensionError "vstack" (a.rows, a.cols) (b.rows, b.cols))

/-- Modelled from the spec: the `build`/analysis entry point — bottom-up,
    fail-fast inference of shape, sign and curvature for every node; leaf
    rules give constants their exact numeric sign and CONSTANT curvature,
    parameters their declared sign and CONSTANT curvature, variables
    UNKNOWN sign and AFFINE curvature. -/
def analyze : EExpr → Except BuildError Ann
  | .const g =>
      .ok ⟨g.length, (g.headD []).length, mapG signConst g,
        mapG (fun _ => CONSTANT) g⟩
  | .param r c s => .ok ⟨r, c, uniformG r c s, uniformG r c CONSTANT⟩
  | .var r c => .ok ⟨r, c, uniformG r c Sign.UNKNOWN, uniformG r c AFFINE⟩
  | .add a b =>
      match analyze a, analyze b with
      | .ok x, .ok y => addNode x y
      | .error e, _ => .error e
      | _, .error e => .error e
  | .sub a b =>
      match analyze a, analyze b with
      | .ok x, .ok y => subNode x y
      | .error e, _ => .error e
      | _, .error e => .error e
  | .mul a b =>
      match analyze a, analyze b with
      | .ok x, .ok y => mulNode x y
      | .error e, _ => .error e
      | _, .error e => .error e
  | .div a b =>
      match analyze a, analyze b with
      | .ok x, .ok y => divNode x y
      | .error e, _ => .error e
      | _, .error e => .error e
  | .square a =>
      match analyze a with
      | .ok x => .ok (squareNode x)
      | .error e => .error e
  | .sqrt a =>
      match analyze a with
      | .ok x => .ok (sqrtNode x)
      | .error e => .error e
  | .norm2 a =>
      match analyze a with
      | .ok x => .ok (norm2Node x)
      | .error e => .error e
  | .sumAll a =>
      match analyze a with
      | .ok x => .ok (sumNode x)
      | .error e => .error e
  | .sumAxis ax a =>
      match analyze a with
      | .ok x => .ok (sumAxisNode ax x)
      | .error e => .error e
  | .vstack2 a b =>
      match analyze a, analyze b with
      | .ok x, .ok y => vstack2Node x y
      | .error e, _ => .error e
      | _, .error e => .error e

deriving instance DecidableEq for Except

/-- A memoization table mapping expressions to their analysis results. -/
abbrev Cache : Type :=
  List (EExpr × Except BuildError Ann)

/-- Look an expression up in a memoization table. -/
def lookupC (e : EExpr) : Cache → Option (Except BuildError Ann)
  | [] => none
  | p :: ps => if p.1 = e then some p.2 else lookupC e ps

/-- Modelled from the spec: a memoized query — return the cached analysis
    result when present, otherwise compute it once and store it. -/
def query (e : EExpr) (c : Cache) : Except BuildError Ann × Cache :=
  match lookupC e c with
  | some r => (r, c)
  | none => (analyze e, (e, analyze e) :: c)

/-- A memoization table is well formed when every stored result is the one
    recomputation from the expression yields. -/
def WFCache (c : Cache) : Prop :=
  ∀ p ∈ c, analyze p.1 = p.2

/-- What a reported sign promises about a value: POSITIVE means
    nonnegative, NEGATIVE nonpositive, ZERO exactly zero, UNKNOWN nothing. -/
def SignMeans : Sign → ℝ → Prop
  | POSITIVE => fun v => 0 ≤ v
  | NEGATIVE => fun v => v ≤ 0
  | ZERO => fun v => v = 0
  | Sign.UNKNOWN => fun _ => True

/-- What a reported curvature promises about a function on a domain:
    CONSTANT means independent of the assignment on a convex domain, AFFINE
    means convex and concave there, CONVEX/CONCAVE mean the function is
    truly convex/concave on the domain, UNKNOWN promises nothing. -/
def CurvMeansOn (D : Set (ℕ → ℝ)) : Curvature → ((ℕ → ℝ) → ℝ) → Prop
  | CONSTANT => fun f => Convex ℝ D ∧ ∃ k : ℝ, ∀ ρ ∈ D, f ρ = k
  | AFFINE => fun f => ConvexOn ℝ D f ∧ ConcaveOn ℝ D f
  | CONVEX => fun f => ConvexOn ℝ D f
  | CONCAVE => fun f => ConcaveOn ℝ D f
  | Curvature.UNKNOWN => fun _ => True

/-- The semantic annotation of one grid entry: the reported sign and
    curvature, the entry's natural domain (the assignments on which every
    sqrt argument below it is nonnegative), and the mathematical function
    of the variable assignment the entry denotes. -/
structure SEntry where
  sg : Sign
  cv : Curvature
  dm : Set (ℕ → ℝ)
  fn : (ℕ → ℝ) → ℝ

instance : Inhabited SEntry :=
  ⟨⟨default, default, Set.univ, fun _ => 0⟩⟩

/-- A semantically annotated node: the cached shape together with the grid
    of semantic entries. -/
structure SAnn where
  rows : ℕ
  cols : ℕ
  g : List (List SEntry)

/-- Forget the semantics: project a semantic annotation to the analyzer's
    annotation. -/
def projAnn (s : SAnn) : Ann :=
  ⟨s.rows, s.cols, mapG SEntry.sg s.g, mapG SEntry.cv s.g⟩

/-- Project one semantic entry to its (sign, curvature) pair. -/
def prSC (t : SEntry) : Sign × Curvature :=
  (t.sg, t.cv)

/-- Intersection of the domains of a list of semantic entries. -/
def domInter (ts : List SEntry) : Set (ℕ → ℝ) :=
  ts.foldr (fun t acc => t.dm ∩ acc) Set.univ

/-- Semantic addition entry: the addition sign table, the affine
    composition rule, and the sum of the denoted functions. -/
def sAddEntry (t1 t2 : SEntry) : SEntry :=
  ⟨sign_add t1.sg t2.sg, addCurv t1.cv t2.cv, t1.dm ∩ t2.dm,
    fun ρ => t1.fn ρ + t2.fn ρ⟩

/-- Semantic subtraction entry. -/
def sSubEntry (t1 t2 : SEntry) : SEntry :=
  ⟨sign_add t1.sg (sign_neg t2.sg), subCurv t1.cv t2.cv, t1.dm ∩ t2.dm,
    fun ρ => t1.fn ρ - t2.fn ρ⟩

/-- Semantic product entry: the multiplication sign table, the affine
    composition rule with sign-induced monotonicities, and the product of
    the denoted functions. -/
def sMulEntry (t1 t2 : SEntry) : SEntry :=
  ⟨sign_mul t1.sg t2.sg,
    curvApply AFFINE [(t1.cv, monoOfSign t2.sg), (t2.cv, monoOfSign t1.sg)],
    t1.dm ∩ t2.dm, fun ρ => t1.fn ρ * t2.fn ρ⟩

/-- Semantic quotient entry: analysis as for the product (the reciprocal of
    a constant has the constant's sign), denoting the pointwise quotient. -/
noncomputable def sDivEntry (t1 t2 : SEntry) : SEntry :=
  ⟨sign_mul t1.sg t2.sg,
    curvApply AFFINE [(t1.cv, monoOfSign t2.sg), (t2.cv, monoOfSign t1.sg)],
    t1.dm ∩ t2.dm, fun ρ => t1.fn ρ / t2.fn ρ⟩

/-- Semantic sum of a list of entries: the addition sign fold, the affine
    composition rule with INCREASING monotonicities, the common domain and
    the sum of the denoted functions. -/
def sSumEntries (ts : List SEntry) : SEntry :=
  ⟨sumSign (ts.map SEntry.sg), sumCurv (ts.map SEntry.cv), domInter ts,
    fun ρ => (ts.map (fun t => t.fn ρ)).sum⟩

/-- Semantic entry of one matrix-product position. -/
def sDotEntry (row col : List SEntry) : SEntry :=
  sSumEntries (List.zipWith sMulEntry row col)

/-- Semantic square entry: CONVEX base with sign-dependent monotonicity,
    denoting the pointwise square. -/
def sSquareEntry (t : SEntry) : SEntry :=
  ⟨squareSign t.sg, curvApply CONVEX [(t.cv, monoOfSign t.sg)], t.dm,
    fun ρ => t.fn ρ ^ 2⟩

/-- Semantic sqrt entry: CONCAVE base, INCREASING monotonicity, the domain
    restricted to where the argument is nonnegative, denoting the pointwise
    real square root. -/
noncomputable def sSqrtEntry (t : SEntry) : SEntry :=
  ⟨squareSign t.sg, curvApply CONCAVE [(t.cv, INCREASING)],
    t.dm ∩ {ρ | 0 ≤ t.fn ρ}, fun ρ => Real.sqrt (t.fn ρ)⟩

/-- Semantic mirror of the elementwise addition/subtraction node builder. -/
def sEwNode (op : String) (comb : SEntry → SEntry → SEntry)
    (a b : SAnn) : Except BuildError SAnn :=
  if isScalarAnn (projAnn a) && !isScalarAnn (projAnn b) then
    .ok ⟨b.rows, b.cols, mapG (comb (entry00 a.g)) b.g⟩
  else if isScalarAnn (projAnn b) && !isScalarAnn (projAnn a) then
    .ok ⟨a.rows, a.cols, mapG (fun t => comb t (entry00 b.g)) a.g⟩
  else if decide (a.rows = b.rows) && decide (a.cols = b.cols) then
    .ok ⟨a.rows, a.cols, zipG comb a.g b.g⟩
  else
    .error (.dimensionError op (a.rows, a.cols) (b.rows, b.cols))

/-- Semantic mirror of the multiplication node builder. -/
def sMulNode (a b : SAnn) : Except BuildError SAnn :=
  if !isConstAnn (projAnn a) && !isConstAnn (projAnn b) then
    .error (.invalidOperandError "*")
  else if isScalarAnn (projAnn a) then
    .ok ⟨b.rows, b.cols, mapG (fun t => sMulEntry (entry00 a.g) t) b.g⟩
  else if isScalarAnn (projAnn b) then
    .ok ⟨a.rows, a.cols, mapG (fun t => sMulEntry t (entry00 b.g)) a.g⟩
  else if decide (a.cols = b.rows) then
    .ok ⟨a.rows, b.cols,
      a.g.map (fun row => (transposeG b.g).map (fun col => sDotEntry row col))⟩
  else
    .error (.dimensionError "*" (a.rows, a.cols) (b.rows, b.cols))

/-- Semantic mirror of the division node builder. -/
noncomputable def sDivNode (a b : SAnn) : Except BuildError SAnn :=
  if !(isScalarAnn (projAnn b) && isConstAnn (projAnn b)) then
    .error (.invalidOperandError "/")
  else
    .ok ⟨a.rows, a.cols, mapG (fun t => sDivEntry t (entry00 b.g)) a.g⟩

/-- Semantic mirror of the L2 norm node: a scalar whose function is the
    square root of the sum of the squares of all entries of the argument. -/
noncomputable def sNorm2Node (a : SAnn) : SAnn :=
  ⟨1, 1,
    [[⟨POSITIVE,
        curvApply CONVEX ((entriesG a.g).map (fun t => (t.cv, NONMONOTONE))),
        domInter (entriesG a.g),
        fun ρ => Real.sqrt (((entriesG a.g).map (fun t => t.fn ρ ^ 2)).sum)⟩]]⟩

/-- Semantic mirror of the full-argument sum node. -/
def sSumNode (a : SAnn) : SAnn :=
  ⟨1, 1, [[sSumEntries (entriesG a.g)]]⟩

/-- Semantic mirror of the per-axis sum node. -/
def sSumAxisNode (axis : Bool) (a : SAnn) : SAnn :=
  if axis then ⟨a.rows, 1, a.g.map (fun row => [sSumEntries row])⟩
  else ⟨1, a.cols, [(transposeG a.g).map sSumEntries]⟩

/-- Semantic mirror of the vertical stacking node. -/
def sVstack2Node (a b : SAnn) : Except BuildError SAnn :=
  if decide (a.cols = b.cols) then
    .ok ⟨a.rows + b.rows, a.cols, a.g ++ b.g⟩
  else
    .error (.dimensionError "vstack" (a.rows, a.cols) (b.rows, b.cols))

/-- Semantic entry of a variable grid position: the untouched projection of
    the assignment at a coordinate determined by the position. -/
def sVarEntry (i j : ℕ) : SEntry :=
  ⟨Sign.UNKNOWN, AFFINE, Set.univ, fun ρ => ρ (Nat.pair i j)⟩

/-- The semantic analysis: the same bottom-up, fail-fast recursion as
    `analyze`, but each entry additionally carries its denoted mathematical
    function and natural domain.  Parameters are interpreted by a valuation
    `π` that assigns a real value to each declared sign. -/
noncomputable def sAnalyze (π : Sign → ℝ) : EExpr → Except BuildError SAnn
  | .const g =>
      .ok ⟨g.length, (g.headD []).length,
        mapG (fun q => ⟨signConst q, CONSTANT, Set.univ, fun _ => (q : ℝ)⟩) g⟩
  | .param r c s =>
      .ok ⟨r, c, uniformG r c ⟨s, CONSTANT, Set.univ, fun _ => π s⟩⟩
  | .var r c =>
      .ok ⟨r, c,
        (List.range r).map (fun i => (List.range c).map (fun j => sVarEntry i j))⟩
  | .add a b =>
      match sAnalyze π a, sAnalyze π b with
      | .ok x, .ok y => sEwNode "+" sAddEntry x y
      | .error e, _ => .error e
      | _, .error e => .error e
  | .sub a b =>
      match sAnalyze π a, sAnalyze π b with
      | .ok x, .ok y => sEwNode "-" sSubEntry x y
      | .error e, _ => .error e
      | _, .error e => .error e
  | .mul a b =>
      match sAnalyze π a, sAnalyze π b with
      | .ok x, .ok y => sMulNode x y
      | .error e, _ => .error e
      | _, .error e => .error e
  | .div a b =>
      match sAnalyze π a, sAnalyze π b with
      | .ok x, .ok y => sDivNode x y
      | .error e, _ => .error e
      | _, .error e => .error e
  | .square a =>
      match sAnalyze π a with
      | .ok x => .ok ⟨x.rows, x.cols, mapG sSquareEntry x.g⟩
      | .error e => .error e
  | .sqrt a =>
      match sAnalyze π a with
      | .ok x => .ok ⟨x.rows, x.cols, mapG sSqrtEntry x.g⟩
      | .error e => .error e
  | .norm2 a =>
      match sAnalyze π a with
      | .ok x => .ok (sNorm2Node x)
      | .error e => .error e
  | .sumAll a =>
      match sAnalyze π a with
      | .ok x => .ok (sSumNode x)
      | .error e => .error e
  | .sumAxis ax a =>
      match sAnalyze π a with
      | .ok x => .ok (sSumAxisNode ax x)
      | .error e => .error e
  | .vstack2 a b =>
      match sAnalyze π a, sAnalyze π b with
      | .ok x, .ok y => sVstack2Node x y
      | .error e, _ => .error e
      | _, .error e => .error e

/-- Soundness of one semantic entry: the reported sign is true of the
    denoted function everywhere on the entry's domain, and the reported
    curvature is true of the denoted function on the domain. -/
def SoundEntry (t : SEntry) : Prop :=
  (∀ ρ ∈ t.dm, SignMeans t.sg (t.fn ρ)) ∧ CurvMeansOn t.dm t.cv t.fn

/-- Every entry of a grid satisfies a predicate. -/
def allG (P : α → Prop) (g : List (List α)) : Prop :=
  ∀ row ∈ g, ∀ x ∈ row, P x

/-- A concrete parameter valuation respecting the declared signs: a
    positive parameter is interpreted as 1, a negative one as -1, anything
    else as 0. -/
noncomputable def piDemo : Sign → ℝ
  | POSITIVE => 1
  | NEGATIVE => -1
  | _ => 0

/-- A concrete expression exercising the nontrivial atoms:
    sqrt(1 + square(x)) for a scalar variable x. -/
def eDemo : EExpr :=
  .sqrt (.add (.const [[1]]) (.square (.var 1 1)))

theorem curvApply_eq_CONSTANT {base : Curvature}
    {args : List (Curvature × Monotonicity)}
    (h : curvApply base args = CONSTANT) :
    isCONST base = true ∧ args.all (fun p => isCONST p.1) = true := by
  unfold curvApply at h
  split_ifs at h with h1 h2 h3 h4
  rw [Bool.and_eq_true] at h1
  exact h1

theorem curvApply_eq_AFFINE {base : Curvature}
    {args : List (Curvature × Monotonicity)}
    (h : curvApply base args = AFFINE) :
    affSlot base = true ∧ args.all (fun p => affSlot p.1) = true := by
  unfold curvApply at h
  split_ifs at h with h1 h2 h3 h4
  rw [Bool.and_eq_true] at h2
  exact h2

theorem curvApply_eq_CONVEX {base : Curvature}
    {args : List (Curvature × Monotonicity)}
    (h : curvApply base args = CONVEX) :
    cvxBase base = true ∧ args.all cvxSlot = true := by
  unfold curvApply at h
  split_ifs at h with h1 h2 h3 h4
  rw [Bool.and_eq_true] at h3
  exact h3

theorem curvApply_eq_CONCAVE {base : Curvature}
    {args : List (Curvature × Monotonicity)}
    (h : curvApply base args = CONCAVE) :
    ccvBase base = true ∧ args.all ccvSlot = true := by
  unfold curvApply at h
  split_ifs at h with h1 h2 h3 h4
  rw [Bool.and_eq_true] at h4
  exact h4

theorem cvxSlot_iff (p : Curvature × Monotonicity) :
    cvxSlot p = true ↔
      (p.1 = CONVEX ∧ p.2 = INCREASING) ∨
      (p.1 = CONCAVE ∧ p.2 = DECREASING) ∨
      p.1 = AFFINE ∨ p.1 = CONSTANT := by
  obtain ⟨c, m⟩ := p
  cases c <;> cases m <;> simp [cvxSlot]

theorem ccvSlot_iff (p : Curvature × Monotonicity) :
    ccvSlot p = true ↔
      (p.1 = CONCAVE ∧ p.2 = INCREASING) ∨
      (p.1 = CONVEX ∧ p.2 = DECREASING) ∨
      p.1 = AFFINE ∨ p.1 = CONSTANT := by
  obtain ⟨c, m⟩ := p
  cases c <;> cases m <;> simp [ccvSlot]

theorem curvApply_CONVEX_base (args : List (Curvature × Monotonicity)) :
    curvApply CONVEX args =
      (if args.all cvxSlot then CONVEX else Curvature.UNKNOWN) := by
  cases h : args.all cvxSlot <;>
    simp [curvApply, isCONST, affSlot, cvxBase, ccvBase, h]

theorem curvApply_CONCAVE_base (args : List (Curvature × Monotonicity)) :
    curvApply CONCAVE args =
      (if args.all ccvSlot then CONCAVE else Curvature.UNKNOWN) := by
  cases h : args.all ccvSlot <;>
    simp [curvApply, isCONST, affSlot, cvxBase, ccvBase, h]

/-- C2: with a CONVEX base curvature the engine flags the node CONVEX
    exactly when every argument slot holds — the child is CONVEX with
    INCREASING monotonicity at its computed sign, or CONCAVE with
    DECREASING monotonicity, or AFFINE/CONSTANT; the symmetric rule gives
    CONCAVE for a CONCAVE base; when no rule applies the result is
    UNKNOWN. -/
theorem claim2_composition_rules (args : List (Curvature × Monotonicity)) :
    (curvApply CONVEX args = CONVEX ↔
      ∀ p ∈ args,
        (p.1 = CONVEX ∧ p.2 = INCREASING) ∨
        (p.1 = CONCAVE ∧ p.2 = DECREASING) ∨
        p.1 = AFFINE ∨ p.1 = CONSTANT) ∧
    (curvApply CONCAVE args = CONCAVE ↔
      ∀ p ∈ args,
        (p.1 = CONCAVE ∧ p.2 = INCREASING) ∨
        (p.1 = CONVEX ∧ p.2 = DECREASING) ∨
        p.1 = AFFINE ∨ p.1 = CONSTANT) ∧
    (curvApply CONVEX args ≠ CONVEX →
      curvApply CONVEX args = Curvature.UNKNOWN) ∧
    (curvApply CONCAVE args ≠ CONCAVE →
      curvApply CONCAVE args = Curvature.UNKNOWN) := by
  rw [curvApply_CONVEX_base, curvApply_CONCAVE_base]
  by_cases h1 : args.all cvxSlot <;> by_cases h2 : args.all ccvSlot <;>
    simp [h1, h2, List.all_eq_true, cvxSlot_iff, ccvSlot_iff] <;>
    simp [List.all_eq_true, cvxSlot_iff, ccvSlot_iff] at h1 h2 <;>
    first
      | exact h1
      | exact h2
      | exact ⟨h1, h2⟩

/-- Witness for C2: a single CONVEX child with NONMONOTONE monotonicity
    satisfies no slot, so the engine reports UNKNOWN. -/
theorem claim2_composition_rules_witness :
    curvApply CONVEX [(CONVEX, NONMONOTONE)] = Curvature.UNKNOWN :=
  (claim2_composition_rules [(CONVEX, NONMONOTONE)]).2.2.1 (by decide)

/-- C3: the multiplication/division sign table — ZERO dominates, otherwise
    POSITIVE when both signs are known and equal, NEGATIVE when both are
    known and differ, UNKNOWN otherwise; in particular an UNKNOWN sign on a
    non-ZERO operand makes the result UNKNOWN. -/
theorem claim3_sign_mul_table :
    (∀ s t : Sign, sign_mul s t =
      (if s = ZERO ∨ t = ZERO then ZERO
       else if s ≠ Sign.UNKNOWN ∧ t ≠ Sign.UNKNOWN ∧ s = t then POSITIVE
       else if s ≠ Sign.UNKNOWN ∧ t ≠ Sign.UNKNOWN then NEGATIVE
       else Sign.UNKNOWN)) ∧
    (∀ s : Sign, s ≠ ZERO →
      sign_mul s Sign.UNKNOWN = Sign.UNKNOWN ∧
      sign_mul Sign.UNKNOWN s = Sign.UNKNOWN) := by
  constructor
  · intro s t
    cases s <;> cases t <;> decide
  · intro s hs
    cases s <;> first | exact absurd rfl hs | exact ⟨rfl, rfl⟩

/-- Witness for C3: instantiated at a POSITIVE operand. -/
theorem claim3_sign_mul_table_witness :
    sign_mul POSITIVE Sign.UNKNOWN = Sign.UNKNOWN ∧
    sign_mul Sign.UNKNOWN POSITIVE = Sign.UNKNOWN :=
  claim3_sign_mul_table.2 POSITIVE (by decide)

theorem slot_both_affSlot {p : Curvature × Monotonicity}
    (h1 : cvxSlot p = true) (h2 : ccvSlot p = true) : affSlot p.1 = true := by
  obtain ⟨c, m⟩ := p
  cases c <;> cases m <;> simp_all [cvxSlot, ccvSlot, affSlot]

/-- C4: the curvature subtype chain is preserved by composition — a
    CONSTANT or AFFINE child satisfies the affine, convex and concave slot
    conditions regardless of monotonicity; a node the engine reports
    CONSTANT also satisfies the affine rule's conditions; and whenever both
    the convex and the concave rules are applicable the engine reports
    AFFINE (or CONSTANT), never a separate joint tag. -/
theorem claim4_subtype_chain :
    (∀ m : Monotonicity,
      affSlot CONSTANT = true ∧ cvxSlot (CONSTANT, m) = true ∧
      ccvSlot (CONSTANT, m) = true ∧ cvxSlot (AFFINE, m) = true ∧
      ccvSlot (AFFINE, m) = true) ∧
    (∀ (base : Curvature) (args : List (Curvature × Monotonicity)),
      curvApply base args = CONSTANT →
      affSlot base = true ∧ args.all (fun p => affSlot p.1) = true) ∧
    (∀ (base : Curvature) (args : List (Curvature × Monotonicity)),
      cvxBase base = true → args.all cvxSlot = true →
      ccvBase base = true → args.all ccvSlot = true →
      curvApply base args = AFFINE ∨ curvApply base args = CONSTANT) := by
  refine ⟨by intro m; cases m <;> decide, ?_, ?_⟩
  · intro base args h
    obtain ⟨hb, ha⟩ := curvApply_eq_CONSTANT h
    constructor
    · cases base <;> first | rfl | exact absurd hb (by decide)
    · rw [List.all_eq_true] at ha ⊢
      intro p hp
      have h' := ha p hp
      cases hc : p.1 <;> rw [hc] at h' <;>
        first | rfl | exact absurd h' (by decide)
  · intro base args hb1 ha1 hb2 ha2
    have hbaff : affSlot base = true := by
      cases base <;>
        first
          | rfl
          | exact absurd hb1 (by decide)
          | exact absurd hb2 (by decide)
    have haaff : args.all (fun p => affSlot p.1) = true := by
      rw [List.all_eq_true] at ha1 ha2 ⊢
      intro p hp
      exact slot_both_affSlot (ha1 p hp) (ha2 p hp)
    unfold curvApply
    split_ifs with h1 h2 h3 h4
    · right
      rfl
    · left
      rfl
    all_goals exact absurd (by rw [Bool.and_eq_true]; exact ⟨hbaff, haaff⟩) h2

/-- Witness for C4: an AFFINE atom over one CONSTANT child, where both the
    convex and the concave rules apply, is reported AFFINE or CONSTANT. -/
theorem claim4_subtype_chain_witness :
    curvApply AFFINE [(CONSTANT, INCREASING)] = AFFINE ∨
    curvApply AFFINE [(CONSTANT, INCREASING)] = CONSTANT :=
  claim4_subtype_chain.2.2 AFFINE [(CONSTANT, INCREASING)]
    (by decide) (by decide) (by decide) (by decide)

/-- C5: a CONSTANT operand with known NEGATIVE sign flips the composed
    curvature of a product — the flip goes through the monotonicity/sign
    contract (the induced DECREASING monotonicity in the other argument of
    the affine multiplication atom), a CONVEX co-operand becomes CONCAVE
    and vice versa; entrywise, the constant vector [1, -1] times a CONVEX
    scalar expression yields the per-entry curvature grid
    [CONVEX, CONCAVE]. -/
theorem claim5_negative_constant_flip :
    (∀ (s2 : Sign) (c2 : Curvature),
      mulEntry (NEGATIVE, CONSTANT) (s2, c2) =
        (sign_mul NEGATIVE s2,
         curvApply AFFINE [(CONSTANT, monoOfSign s2), (c2, DECREASING)])) ∧
    (∀ s2 : Sign,
      (mulEntry (NEGATIVE, CONSTANT) (s2, CONVEX)).2 = CONCAVE ∧
      (mulEntry (NEGATIVE, CONSTANT) (s2, CONCAVE)).2 = CONVEX ∧
      (mulEntry (s2, CONVEX) (NEGATIVE, CONSTANT)).2 = CONCAVE ∧
      (mulEntry (s2, CONCAVE) (NEGATIVE, CONSTANT)).2 = CONVEX) ∧
    analyze (EExpr.mul (EExpr.const [[1], [-1]])
        (EExpr.square (EExpr.var 1 1))) =
      .ok ⟨2, 1, [[POSITIVE], [NEGATIVE]], [[CONVEX], [CONCAVE]]⟩ := by
  refine ⟨fun s2 c2 => rfl, fun s2 => ?_, by decide⟩
  cases s2 <;> exact ⟨rfl, rfl, rfl, rfl⟩

/-- C6: a multiplication whose operands are both non-CONSTANT, and a
    division whose right operand is not a scalar CONSTANT, fail with
    InvalidOperandError at node-construction time — both at the node
    builder and through the `analyze` construction entry point. -/
theorem claim6_invalid_operands :
    (∀ a b : Ann, isConstAnn a = false → isConstAnn b = false →
      mulNode a b = .error (.invalidOperandError "*")) ∧
    (∀ (e1 e2 : EExpr) (a b : Ann),
      analyze e1 = .ok a → analyze e2 = .ok b →
      isConstAnn a = false → isConstAnn b = false →
      analyze (EExpr.mul e1 e2) = .error (.invalidOperandError "*")) ∧
    (∀ a b : Ann, (isScalarAnn b && isConstAnn b) = false →
      divNode a b = .error (.invalidOperandError "/")) ∧
    (∀ (e1 e2 : EExpr) (a b : Ann),
      analyze e1 = .ok a → analyze e2 = .ok b →
      (isScalarAnn b && isConstAnn b) = false →
      analyze (EExpr.div e1 e2) = .error (.invalidOperandError "/")) := by
  have hm : ∀ a b : Ann, isConstAnn a = false → isConstAnn b = false →
      mulNode a b = .error (.invalidOperandError "*") := by
    intro a b ha hb
    unfold mulNode
    rw [ha, hb]
    rfl
  have hd : ∀ a b : Ann, (isScalarAnn b && isConstAnn b) = false →
      divNode a b = .error (.invalidOperandError "/") := by
    intro a b hb
    unfold divNode
    rw [hb]
    rfl
  refine ⟨hm, ?_, hd, ?_⟩
  · intro e1 e2 a b h1 h2 ha hb
    simp only [analyze, h1, h2]
    exact hm a b ha hb
  · intro e1 e2 a b h1 h2 hb
    simp only [analyze, h1, h2]
    exact hd a b hb

/-- Witness for C6: the product and the quotient of two scalar variables. -/
theorem claim6_invalid_operands_witness :
    analyze (EExpr.mul (EExpr.var 1 1) (EExpr.var 1 1)) =
      .error (.invalidOperandError "*") ∧
    analyze (EExpr.div (EExpr.var 1 1) (EExpr.var 1 1)) =
      .error (.invalidOperandError "/") :=
  ⟨claim6_invalid_operands.2.1 (EExpr.var 1 1) (EExpr.var 1 1)
      ⟨1, 1, [[Sign.UNKNOWN]], [[AFFINE]]⟩ ⟨1, 1, [[Sign.UNKNOWN]], [[AFFINE]]⟩
      (by decide) (by decide) (by decide) (by decide),
    claim6_invalid_operands.2.2.2 (EExpr.var 1 1) (EExpr.var 1 1)
      ⟨1, 1, [[Sign.UNKNOWN]], [[AFFINE]]⟩ ⟨1, 1, [[Sign.UNKNOWN]], [[AFFINE]]⟩
      (by decide) (by decide) (by decide)⟩

/-- C7: elementwise addition requires equal shapes or a scalar operand;
    any other combination fails eagerly with a DimensionError carrying the
    operator name and exactly the two conflicting shapes — in particular a
    (3,5) node plus a (5,4) node raises DimensionError with shapes (3,5)
    and (5,4). -/
theorem claim7_dimension_error :
    (∀ a b : Ann, isScalarAnn a = false → isScalarAnn b = false →
      (a.rows, a.cols) ≠ (b.rows, b.cols) →
      addNode a b =
        .error (.dimensionError "+" (a.rows, a.cols) (b.rows, b.cols))) ∧
    (∀ a b : Ann,
      (a.rows, a.cols) = (b.rows, b.cols) ∨ isScalarAnn a = true ∨
        isScalarAnn b = true →
      (addNode a b).isOk = true) ∧
    (∀ (e1 e2 : EExpr) (a b : Ann),
      analyze e1 = .ok a → analyze e2 = .ok b →
      isScalarAnn a = false → isScalarAnn b = false →
      (a.rows, a.cols) ≠ (b.rows, b.cols) →
      analyze (EExpr.add e1 e2) =
        .error (.dimensionError "+" (a.rows, a.cols) (b.rows, b.cols))) ∧
    analyze (EExpr.add (EExpr.var 3 5) (EExpr.var 5 4)) =
      .error (.dimensionError "+" (3, 5) (5, 4)) := by
  have key : ∀ a b : Ann, isScalarAnn a = false → isScalarAnn b = false →
      (a.rows, a.cols) ≠ (b.rows, b.cols) →
      addNode a b =
        .error (.dimensionError "+" (a.rows, a.cols) (b.rows, b.cols)) := by
    intro a b ha hb hne
    have hshape : (decide (a.rows = b.rows) && decide (a.cols = b.cols)) = false := by
      by_cases hr : a.rows = b.rows
      · by_cases hc : a.cols = b.cols
        · exact absurd (by rw [hr, hc]) hne
        · simp [hc]
      · simp [hr]
    unfold addNode ewNode
    rw [ha, hb, hshape]
    rfl
  have scalar_shape : ∀ x : Ann, isScalarAnn x = true →
      x.rows = 1 ∧ x.cols = 1 := by
    intro x hx
    unfold isScalarAnn at hx
    rw [Bool.and_eq_true] at hx
    exact ⟨of_decide_eq_true hx.1, of_decide_eq_true hx.2⟩
  refine ⟨key, ?_, ?_, by decide⟩
  · intro a b h
    cases hsa : isScalarAnn a <;> cases hsb : isScalarAnn b
    · rcases h with h | h | h
      · have hr : a.rows = b.rows := congrArg Prod.fst h
        have hc : a.cols = b.cols := congrArg Prod.snd h
        simp [addNode, ewNode, hsa, hsb, hr, hc, Except.isOk, Except.toBool]
      · rw [hsa] at h
        exact absurd h (by decide)
      · rw [hsb] at h
        exact absurd h (by decide)
    · simp [addNode, ewNode, hsa, hsb, Except.isOk, Except.toBool]
    · simp [addNode, ewNode, hsa, hsb, Except.isOk, Except.toBool]
    · obtain ⟨r1, c1⟩ := scalar_shape a hsa
      obtain ⟨r2, c2⟩ := scalar_shape b hsb
      simp [addNode, ewNode, hsa, hsb, r1, c1, r2, c2, Except.isOk,
        Except.toBool]
  · intro e1 e2 a b h1 h2 ha hb hne
    simp only [analyze, h1, h2]
    exact key a b ha hb hne

/-- Witness for C7: the documented example — a (3,5) variable plus a (5,4)
    variable. -/
theorem claim7_dimension_error_witness :
    analyze (EExpr.add (EExpr.var 3 5) (EExpr.var 5 4)) =
      .error (.dimensionError "+" (3, 5) (5, 4)) :=
  claim7_dimension_error.2.2.1 (EExpr.var 3 5) (EExpr.var 5 4)
    ⟨3, 5, uniformG 3 5 Sign.UNKNOWN, uniformG 3 5 AFFINE⟩
    ⟨5, 4, uniformG 5 4 Sign.UNKNOWN, uniformG 5 4 AFFINE⟩
    (by decide) (by decide) (by decide) (by decide) (by decide)

/-- C8: for a scalar variable x of UNKNOWN sign, sqrt(1 + square(x)) is
    assigned curvature UNKNOWN (its argument is CONVEX and the concave
    increasing sqrt atom satisfies no composition rule on a CONVEX child),
    while the reformulation norm(vstack(1, x), 2) is assigned CONVEX. -/
theorem claim8_sqrt_vs_norm :
    (analyze (EExpr.sqrt (EExpr.add (EExpr.const [[1]])
        (EExpr.square (EExpr.var 1 1))))).map Ann.crv =
      .ok [[Curvature.UNKNOWN]] ∧
    (analyze (EExpr.add (EExpr.const [[1]])
        (EExpr.square (EExpr.var 1 1)))).map Ann.crv = .ok [[CONVEX]] ∧
    curvApply CONCAVE [(CONVEX, INCREASING)] = Curvature.UNKNOWN ∧
    (analyze (EExpr.norm2 (EExpr.vstack2 (EExpr.const [[1]])
        (EExpr.var 1 1)))).map Ann.crv = .ok [[CONVEX]] := by
  refine ⟨by decide, by decide, by decide, by decide⟩

/-- C10: a full-argument reduction yields a scalar: for any analyzable
    input of shape (m,n) with m,n ≥ 1, the sum node has shape (1,1) and
    `is_scalar` is true, while the explicit per-axis mode instead drops
    only the reduced axis. -/
theorem claim10_reduction_shape :
    ∀ (e : EExpr) (a : Ann), analyze e = .ok a →
      1 ≤ a.rows → 1 ≤ a.cols →
      analyze (EExpr.sumAll e) = .ok (sumNode a) ∧
      (sumNode a).rows = 1 ∧ (sumNode a).cols = 1 ∧
      isScalarAnn (sumNode a) = true ∧
      (sumAxisNode false a).rows = 1 ∧ (sumAxisNode false a).cols = a.cols ∧
      (sumAxisNode true a).rows = a.rows ∧ (sumAxisNode true a).cols = 1 := by
  intro e a h hr hc
  refine ⟨by simp only [analyze, h], rfl, rfl, rfl, rfl, rfl, rfl, rfl⟩

/-- Witness for C10: the sum of a (5,4) variable has shape (1,1) and is a
    scalar. -/
theorem claim10_reduction_shape_witness :
    analyze (EExpr.sumAll (EExpr.var 5 4)) =
      .ok (sumNode ⟨5, 4, uniformG 5 4 Sign.UNKNOWN, uniformG 5 4 AFFINE⟩) ∧
    (sumNode ⟨5, 4, uniformG 5 4 Sign.UNKNOWN, uniformG 5 4 AFFINE⟩).rows = 1 ∧
    (sumNode ⟨5, 4, uniformG 5 4 Sign.UNKNOWN, uniformG 5 4 AFFINE⟩).cols = 1 ∧
    isScalarAnn (sumNode ⟨5, 4, uniformG 5 4 Sign.UNKNOWN, uniformG 5 4 AFFINE⟩) = true ∧
    (sumAxisNode false ⟨5, 4, uniformG 5 4 Sign.UNKNOWN, uniformG 5 4 AFFINE⟩).rows = 1 ∧
    (sumAxisNode false ⟨5, 4, uniformG 5 4 Sign.UNKNOWN, uniformG 5 4 AFFINE⟩).cols = 4 ∧
    (sumAxisNode true ⟨5, 4, uniformG 5 4 Sign.UNKNOWN, uniformG 5 4 AFFINE⟩).rows = 5 ∧
    (sumAxisNode true ⟨5, 4, uniformG 5 4 Sign.UNKNOWN, uniformG 5 4 AFFINE⟩).cols = 1 :=
  claim10_reduction_shape (EExpr.var 5 4)
    ⟨5, 4, uniformG 5 4 Sign.UNKNOWN, uniformG 5 4 AFFINE⟩
    (by decide) (by decide) (by decide)

theorem lookupC_wf {c : Cache} {e : EExpr} {r : Except BuildError Ann}
    (hwf : WFCache c) (h : lookupC e c = some r) : r = analyze e := by
  induction c with
  | nil => exact absurd h (by simp [lookupC])
  | cons p ps ih =>
      unfold lookupC at h
      split_ifs at h with hp
      · have h2 := hwf p (List.mem_cons_self p ps)
        rw [hp] at h2
        have h3 : p.2 = r := Option.some.inj h
        exact h3.symm.trans h2.symm
      · exact ih (fun q hq => hwf q (List.mem_cons_of_mem p hq)) h

/-- C9: memoized queries never drift — on a well-formed cache, querying a
    node returns exactly what recomputation with the pure analysis function
    yields, the cache stays well formed, and re-querying returns the
    identical value and leaves the cache unchanged. -/
theorem claim9_memoization :
    ∀ (e : EExpr) (c : Cache), WFCache c →
      (query e c).1 = analyze e ∧ WFCache (query e c).2 ∧
      query e (query e c).2 = query e c := by
  intro e c hwf
  cases hl : lookupC e c with
  | some r =>
      have hq : query e c = (r, c) := by
        unfold query
        rw [hl]
      have hr := lookupC_wf hwf hl
      rw [hq]
      exact ⟨hr, hwf, hq⟩
  | none =>
      have hq : query e c = (analyze e, (e, analyze e) :: c) := by
        unfold query
        rw [hl]
      rw [hq]
      refine ⟨rfl, ?_, ?_⟩
      · intro p hp
        rcases List.mem_cons.1 hp with h | h
        · rw [h]
        · exact hwf p h
      · have hhead : lookupC e ((e, analyze e) :: c) = some (analyze e) := by
          unfold lookupC
          rw [if_pos rfl]
        unfold query
        rw [hhead]

theorem signMeans_signConst (q : ℚ) : SignMeans (signConst q) ((q : ℝ)) := by
  unfold signConst
  split_ifs with h1 h2
  · show (q : ℝ) = 0
    exact_mod_cast h1
  · show (0 : ℝ) ≤ (q : ℝ)
    exact_mod_cast le_of_lt h2
  · show (q : ℝ) ≤ 0
    exact_mod_cast le_of_not_lt h2

theorem signMeans_add {s t : Sign} {x y : ℝ} (hx : SignMeans s x)
    (hy : SignMeans t y) : SignMeans (sign_add s t) (x + y) := by
  cases s <;> cases t <;>
    simp only [SignMeans, sign_add] at hx hy ⊢ <;>
    first
      | trivial
      | linarith

theorem signMeans_mul {s t : Sign} {x y : ℝ} (hx : SignMeans s x)
    (hy : SignMeans t y) : SignMeans (sign_mul s t) (x * y) := by
  cases s <;> cases t <;>
    simp only [SignMeans, sign_mul] at hx hy ⊢ <;>
    first
      | trivial
      | exact mul_nonneg hx hy
      | (rw [hx, zero_mul])
      | (rw [hy, mul_zero])
      | nlinarith

theorem signMeans_square {s : Sign} {x : ℝ} (hx : SignMeans s x) :
    SignMeans (squareSign s) (x ^ 2) := by
  cases s <;> simp only [SignMeans, squareSign] at hx ⊢ <;>
    first
      | exact sq_nonneg x
      | (rw [hx]; norm_num)

theorem nonneg_of_mono_inc {s : Sign} {v : ℝ}
    (h : monoOfSign s = INCREASING) (hv : SignMeans s v) : 0 ≤ v := by
  cases s
  · exact hv
  · exact absurd h (by decide)
  · exact le_of_eq (hv : v = 0).symm
  · exact absurd h (by decide)

theorem nonpos_of_mono_dec {s : Sign} {v : ℝ}
    (h : monoOfSign s = DECREASING) (hv : SignMeans s v) : v ≤ 0 := by
  cases s
  · exact absurd h (by decide)
  · exact hv
  · exact absurd h (by decide)
  · exact absurd h (by decide)

theorem cvxSlot_inc (c : Curvature) : cvxSlot (c, INCREASING) = cvxBase c := by
  cases c <;> rfl

theorem ccvSlot_inc (c : Curvature) : ccvSlot (c, INCREASING) = ccvBase c := by
  cases c <;> rfl

theorem mono_inc_of_cvxSlot_convex {m : Monotonicity}
    (h : cvxSlot (CONVEX, m) = true) : m = INCREASING := by
  cases m <;> first | rfl | exact absurd h (by decide)

theorem mono_dec_of_cvxSlot_concave {m : Monotonicity}
    (h : cvxSlot (CONCAVE, m) = true) : m = DECREASING := by
  cases m <;> first | rfl | exact absurd h (by decide)

theorem mono_inc_of_ccvSlot_concave {m : Monotonicity}
    (h : ccvSlot (CONCAVE, m) = true) : m = INCREASING := by
  cases m <;> first | rfl | exact absurd h (by decide)

theorem mono_dec_of_ccvSlot_convex {m : Monotonicity}
    (h : ccvSlot (CONVEX, m) = true) : m = DECREASING := by
  cases m <;> first | rfl | exact absurd h (by decide)

theorem convexOn_eval (i : ℕ) :
    ConvexOn ℝ Set.univ (fun ρ : ℕ → ℝ => ρ i) := by
  refine ⟨convex_univ, ?_⟩
  intro x _ y _ a b ha hb hab
  simp [Pi.add_apply, Pi.smul_apply, smul_eq_mul]

theorem concaveOn_eval (i : ℕ) :
    ConcaveOn ℝ Set.univ (fun ρ : ℕ → ℝ => ρ i) := by
  refine ⟨convex_univ, ?_⟩
  intro x _ y _ a b ha hb hab
  simp [Pi.add_apply, Pi.smul_apply, smul_eq_mul]

/-- Witness for C9: a scalar variable queried against the empty cache. -/
theorem claim9_memoization_witness :
    (query (EExpr.var 1 1) []).1 = analyze (EExpr.var 1 1) ∧
    WFCache (query (EExpr.var 1 1) []).2 ∧
    query (EExpr.var 1 1) (query (EExpr.var 1 1) []).2 =
      query (EExpr.var 1 1) [] :=
  claim9_memoization (EExpr.var 1 1) []
    (fun p hp => absurd hp (List.not_mem_nil p))

theorem zipWith_self_eq_map (f : α → α → β) (l : List α) :
    List.zipWith f l l = l.map (fun a => f a a) := by
  induction l with
  | nil => rfl
  | cons a as ih => simp only [List.zipWith_cons_cons, List.map_cons, ih]

theorem mapG_mapG (f : β → γ) (h : α → β) (g : List (List α)) :
    mapG f (mapG h g) = mapG (fun x => f (h x)) g := by
  simp [mapG, List.map_map, Function.comp]

theorem mapG_zipG (f : γ → δ) (k : α → β → γ) (g1 : List (List α))
    (g2 : List (List β)) :
    mapG f (zipG k g1 g2) = zipG (fun a b => f (k a b)) g1 g2 := by
  unfold mapG zipG
  rw [List.map_zipWith]
  congr 1
  funext r1 r2
  rw [List.map_zipWith]

theorem zipG_mapG (k : β → γ → δ) (f : α₁ → β) (h : α₂ → γ)
    (g1 : List (List α₁)) (g2 : List (List α₂)) :
    zipG k (mapG f g1) (mapG h g2) = zipG (fun a b => k (f a) (h b)) g1 g2 := by
  unfold mapG zipG
  rw [List.zipWith_map]
  congr 1
  funext r1 r2
  rw [List.zipWith_map]

theorem zipG_same (k : α → α → β) (g : List (List α)) :
    zipG k g g = mapG (fun a => k a a) g := by
  unfold zipG mapG
  rw [zipWith_self_eq_map]
  congr 1
  funext r
  rw [zipWith_self_eq_map]

theorem pairG_projAnn (s : SAnn) : pairG (projAnn s) = mapG prSC s.g := by
  show zipG Prod.mk (mapG SEntry.sg s.g) (mapG SEntry.cv s.g) = mapG prSC s.g
  rw [zipG_mapG, zipG_same]
  rfl

theorem pairG_mk (r0 c0 : ℕ) (g : List (List SEntry)) :
    pairG (Ann.mk r0 c0 (mapG SEntry.sg g) (mapG SEntry.cv g)) = mapG prSC g := by
  show zipG Prod.mk (mapG SEntry.sg g) (mapG SEntry.cv g) = mapG prSC g
  rw [zipG_mapG, zipG_same]
  rfl

theorem entry00_mapG [Inhabited α] [Inhabited β] (f : α → β)
    (hf : f default = default) (g : List (List α)) :
    entry00 (mapG f g) = f (entry00 g) := by
  cases g with
  | nil => exact hf.symm
  | cons row rows =>
      cases row with
      | nil => exact hf.symm
      | cons t ts => rfl

theorem entry00_prSC (g : List (List SEntry)) :
    entry00 (mapG prSC g) = prSC (entry00 g) :=
  entry00_mapG prSC rfl g

theorem zipConsG_map (f : α → β) (r : List α) (rs : List (List α)) :
    zipConsG (r.map f) (rs.map (List.map f)) = (zipConsG r rs).map (List.map f) := by
  induction r generalizing rs with
  | nil => rfl
  | cons a as ih =>
      cases rs with
      | nil =>
          show (f a :: List.map f []) :: zipConsG (as.map f) [] = _
          have h0 := ih []
          simp only [List.map_nil] at h0
          simp [zipConsG, h0]
      | cons c cs =>
          simp only [List.map_cons, zipConsG]
          rw [ih]

theorem transposeG_mapG (f : α → β) (g : List (List α)) :
    transposeG (mapG f g) = mapG f (transposeG g) := by
  induction g with
  | nil => rfl
  | cons r rs ih =>
      show zipConsG (r.map f) (transposeG (mapG f rs)) = _
      rw [ih]
      exact zipConsG_map f r (transposeG rs)

theorem entriesG_mapG (f : α → β) (g : List (List α)) :
    entriesG (mapG f g) = (entriesG g).map f := by
  induction g with
  | nil => rfl
  | cons r rs ih =>
      simp only [entriesG, mapG, List.map_cons, List.flatten_cons,
        List.map_append]
      simp only [entriesG, mapG] at ih
      rw [ih]

theorem mapG_uniformG (f : α → β) (r c : ℕ) (v : α) :
    mapG f (uniformG r c v) = uniformG r c (f v) := by
  simp [mapG, uniformG, List.map_replicate]

theorem varGrid_proj (f : SEntry → γ) (v : γ)
    (hf : ∀ i j, f (sVarEntry i j) = v) (r c : ℕ) :
    mapG f ((List.range r).map
      (fun i => (List.range c).map (fun j => sVarEntry i j))) =
      uniformG r c v := by
  unfold mapG uniformG
  rw [List.map_map]
  have h1 : (List.map f ∘ fun i => (List.range c).map fun j => sVarEntry i j) =
      fun _ => List.replicate c v := by
    funext i
    show ((List.range c).map (fun j => sVarEntry i j)).map f = _
    rw [List.map_map]
    have h2 : (f ∘ fun j => sVarEntry i j) = fun _ => v :=
      funext fun j => hf i j
    rw [h2, List.map_const', List.length_range]
  rw [h1, List.map_const', List.length_range]

theorem dotEntry_proj_fst (r c : List SEntry) :
    (dotEntry (r.map prSC) (c.map prSC)).1 = (sDotEntry r c).sg := by
  show sumSign ((List.zipWith mulEntry (r.map prSC) (c.map prSC)).map Prod.fst) =
    sumSign ((List.zipWith sMulEntry r c).map SEntry.sg)
  rw [List.zipWith_map, List.map_zipWith, List.map_zipWith]
  rfl

theorem dotEntry_proj_snd (r c : List SEntry) :
    (dotEntry (r.map prSC) (c.map prSC)).2 = (sDotEntry r c).cv := by
  show sumCurv ((List.zipWith mulEntry (r.map prSC) (c.map prSC)).map Prod.snd) =
    sumCurv ((List.zipWith sMulEntry r c).map SEntry.cv)
  rw [List.zipWith_map, List.map_zipWith, List.map_zipWith]
  rfl

theorem mulGrid_proj_fst (g1 g2 : List (List SEntry)) :
    (mapG prSC g1).map (fun row => (mapG prSC (transposeG g2)).map
      (fun col => (dotEntry row col).1)) =
    mapG SEntry.sg (g1.map (fun row => (transposeG g2).map
      (fun col => sDotEntry row col))) := by
  unfold mapG
  rw [List.map_map, List.map_map]
  congr 1
  funext row
  simp only [Function.comp]
  rw [List.map_map, List.map_map]
  congr 1
  funext col
  simp only [Function.comp]
  exact dotEntry_proj_fst row col

theorem mulGrid_proj_snd (g1 g2 : List (List SEntry)) :
    (mapG prSC g1).map (fun row => (mapG prSC (transposeG g2)).map
      (fun col => (dotEntry row col).2)) =
    mapG SEntry.cv (g1.map (fun row => (transposeG g2).map
      (fun col => sDotEntry row col))) := by
  unfold mapG
  rw [List.map_map, List.map_map]
  congr 1
  funext row
  simp only [Function.comp]
  rw [List.map_map, List.map_map]
  congr 1
  funext col
  simp only [Function.comp]
  exact dotEntry_proj_snd row col

theorem ewNode_proj (op : String) (fs : Sign → Sign → Sign)
    (fc : Curvature → Curvature → Curvature) (comb : SEntry → SEntry → SEntry)
    (hsg : ∀ t1 t2, (comb t1 t2).sg = fs t1.sg t2.sg)
    (hcv : ∀ t1 t2, (comb t1 t2).cv = fc t1.cv t2.cv)
    (s1 s2 : SAnn) :
    ewNode op fs fc (projAnn s1) (projAnn s2) =
      (sEwNode op comb s1 s2).map projAnn := by
  unfold ewNode sEwNode
  dsimp only [projAnn]
  split_ifs with h1 h2 h3
  · show Except.ok _ = Except.ok _
    congr 1
    dsimp only [projAnn]
    rw [mapG_mapG, mapG_mapG, mapG_mapG, mapG_mapG,
      entry00_mapG SEntry.sg rfl, entry00_mapG SEntry.cv rfl]
    simp only [hsg, hcv]
  · show Except.ok _ = Except.ok _
    congr 1
    dsimp only [projAnn]
    rw [mapG_mapG, mapG_mapG, mapG_mapG, mapG_mapG,
      entry00_mapG SEntry.sg rfl, entry00_mapG SEntry.cv rfl]
    simp only [hsg, hcv]
  · show Except.ok _ = Except.ok _
    congr 1
    dsimp only [projAnn]
    rw [zipG_mapG, zipG_mapG, mapG_zipG, mapG_zipG]
    simp only [hsg, hcv]
  · rfl

theorem addNode_proj (s1 s2 : SAnn) :
    addNode (projAnn s1) (projAnn s2) =
      (sEwNode "+" sAddEntry s1 s2).map projAnn :=
  ewNode_proj "+" sign_add addCurv sAddEntry (fun _ _ => rfl) (fun _ _ => rfl)
    s1 s2

theorem subNode_proj (s1 s2 : SAnn) :
    subNode (projAnn s1) (projAnn s2) =
      (sEwNode "-" sSubEntry s1 s2).map projAnn :=
  ewNode_proj "-" (fun u v => sign_add u (sign_neg v)) subCurv sSubEntry
    (fun _ _ => rfl) (fun _ _ => rfl) s1 s2

theorem mulNode_proj (s1 s2 : SAnn) :
    mulNode (projAnn s1) (projAnn s2) = (sMulNode s1 s2).map projAnn := by
  unfold mulNode sMulNode
  dsimp only [projAnn]
  split_ifs with h1 h2 h3 h4
  · rfl
  · show Except.ok _ = Except.ok _
    congr 1
    dsimp only [projAnn]
    simp only [pairG_mk]
    simp only [entry00_prSC]
    rw [mapG_mapG, mapG_mapG, mapG_mapG, mapG_mapG]
    rfl
  · show Except.ok _ = Except.ok _
    congr 1
    dsimp only [projAnn]
    simp only [pairG_mk]
    simp only [entry00_prSC]
    rw [mapG_mapG, mapG_mapG, mapG_mapG, mapG_mapG]
    rfl
  · show Except.ok _ = Except.ok _
    congr 1
    dsimp only [projAnn]
    simp only [pairG_mk]
    rw [transposeG_mapG]
    rw [mulGrid_proj_fst, mulGrid_proj_snd]
  · rfl

theorem divNode_proj (s1 s2 : SAnn) :
    divNode (projAnn s1) (projAnn s2) = (sDivNode s1 s2).map projAnn := by
  unfold divNode sDivNode
  split_ifs with h1
  · rfl
  · show Except.ok _ = Except.ok _
    congr 1
    dsimp only [projAnn]
    simp only [pairG_mk]
    simp only [entry00_prSC]
    rw [mapG_mapG, mapG_mapG, mapG_mapG, mapG_mapG]
    rfl

theorem squareNode_proj (s : SAnn) :
    squareNode (projAnn s) = projAnn ⟨s.rows, s.cols, mapG sSquareEntry s.g⟩ := by
  unfold squareNode
  dsimp only [projAnn]
  simp only [pairG_mk]
  rw [mapG_mapG, mapG_mapG, mapG_mapG, mapG_mapG]
  rfl

theorem sqrtNode_proj (s : SAnn) :
    sqrtNode (projAnn s) = projAnn ⟨s.rows, s.cols, mapG sSqrtEntry s.g⟩ := by
  unfold sqrtNode
  dsimp only [projAnn]
  rw [mapG_mapG, mapG_mapG, mapG_mapG, mapG_mapG]
  rfl

theorem norm2Node_proj (s : SAnn) :
    norm2Node (projAnn s) = projAnn (sNorm2Node s) := by
  unfold norm2Node sNorm2Node
  dsimp only [projAnn]
  rw [entriesG_mapG, List.map_map]
  rfl

theorem sumNode_proj (s : SAnn) :
    sumNode (projAnn s) = projAnn (sSumNode s) := by
  unfold sumNode sSumNode
  dsimp only [projAnn]
  rw [entriesG_mapG, entriesG_mapG]
  rfl

theorem sumAxisNode_proj (ax : Bool) (s : SAnn) :
    sumAxisNode ax (projAnn s) = projAnn (sSumAxisNode ax s) := by
  unfold sumAxisNode sSumAxisNode
  cases ax
  · rw [if_neg (by decide), if_neg (by decide)]
    dsimp only [projAnn]
    rw [transposeG_mapG, transposeG_mapG]
    simp only [mapG, List.map_map, List.map_cons, List.map_nil]
    all_goals rfl
  · rw [if_pos rfl, if_pos rfl]
    dsimp only [projAnn]
    simp only [mapG, List.map_map, List.map_cons, List.map_nil]
    all_goals rfl

theorem vstack2Node_proj (s1 s2 : SAnn) :
    vstack2Node (projAnn s1) (projAnn s2) =
      (sVstack2Node s1 s2).map projAnn := by
  unfold vstack2Node sVstack2Node
  dsimp only [projAnn]
  split_ifs with h1
  · show Except.ok _ = Except.ok _
    congr 1
    dsimp only [projAnn]
    simp only [mapG, List.map_append]
  · rfl

/-- The analyzer is the projection of the semantic analysis: for every
    expression, `analyze` returns exactly the shape, sign grid and
    curvature grid of the semantically annotated result (and the same
    error when construction fails). -/
theorem analyze_eq_proj (π : Sign → ℝ) :
    ∀ e : EExpr, analyze e = (sAnalyze π e).map projAnn := by
  intro e
  induction e with
  | const g =>
      show Except.ok _ = Except.ok _
      congr 1
      dsimp only [projAnn]
      rw [mapG_mapG, mapG_mapG]
      all_goals rfl
  | param r c s =>
      show Except.ok _ = Except.ok _
      congr 1
      dsimp only [projAnn]
      rw [mapG_uniformG, mapG_uniformG]
      all_goals rfl
  | var r c =>
      show Except.ok _ = Except.ok _
      congr 1
      dsimp only [projAnn]
      rw [varGrid_proj SEntry.sg Sign.UNKNOWN (fun _ _ => rfl),
        varGrid_proj SEntry.cv AFFINE (fun _ _ => rfl)]
  | add a b iha ihb =>
      simp only [analyze, sAnalyze]
      rw [iha, ihb]
      cases sAnalyze π a with
      | error e => cases sAnalyze π b <;> rfl
      | ok s1 =>
          cases sAnalyze π b with
          | error e => rfl
          | ok s2 =>
              show addNode (projAnn s1) (projAnn s2) = _
              rw [addNode_proj s1 s2]
              all_goals rfl
  | sub a b iha ihb =>
      simp only [analyze, sAnalyze]
      rw [iha, ihb]
      cases sAnalyze π a with
      | error e => cases sAnalyze π b <;> rfl
      | ok s1 =>
          cases sAnalyze π b with
          | error e => rfl
          | ok s2 =>
              show subNode (projAnn s1) (projAnn s2) = _
              rw [subNode_proj s1 s2]
              all_goals rfl
  | mul a b iha ihb =>
      simp only [analyze, sAnalyze]
      rw [iha, ihb]
      cases sAnalyze π a with
      | error e => cases sAnalyze π b <;> rfl
      | ok s1 =>
          cases sAnalyze π b with
          | error e => rfl
          | ok s2 =>
              show mulNode (projAnn s1) (projAnn s2) = _
              rw [mulNode_proj s1 s2]
              all_goals rfl
  | div a b iha ihb =>
      simp only [analyze, sAnalyze]
      rw [iha, ihb]
      cases sAnalyze π a with
      | error e => cases sAnalyze π b <;> rfl
      | ok s1 =>
          cases sAnalyze π b with
          | error e => rfl
          | ok s2 =>
              show divNode (projAnn s1) (projAnn s2) = _
              rw [divNode_proj s1 s2]
              all_goals rfl
  | square a iha =>
      simp only [analyze, sAnalyze]
      rw [iha]
      cases sAnalyze π a with
      | error e => rfl
      | ok s =>
          show Except.ok (squareNode (projAnn s)) = _
          rw [squareNode_proj s]
          all_goals rfl
  | sqrt a iha =>
      simp only [analyze, sAnalyze]
      rw [iha]
      cases sAnalyze π a with
      | error e => rfl
      | ok s =>
          show Except.ok (sqrtNode (projAnn s)) = _
          rw [sqrtNode_proj s]
          all_goals rfl
  | norm2 a iha =>
      simp only [analyze, sAnalyze]
      rw [iha]
      cases sAnalyze π a with
      | error e => rfl
      | ok s =>
          show Except.ok (norm2Node (projAnn s)) = _
          rw [norm2Node_proj s]
          all_goals rfl
  | sumAll a iha =>
      simp only [analyze, sAnalyze]
      rw [iha]
      cases sAnalyze π a with
      | error e => rfl
      | ok s =>
          show Except.ok (sumNode (projAnn s)) = _
          rw [sumNode_proj s]
          all_goals rfl
  | sumAxis ax a iha =>
      simp only [analyze, sAnalyze]
      rw [iha]
      cases sAnalyze π a with
      | error e => rfl
      | ok s =>
          show Except.ok (sumAxisNode ax (projAnn s)) = _
          rw [sumAxisNode_proj ax s]
          all_goals rfl
  | vstack2 a b iha ihb =>
      simp only [analyze, sAnalyze]
      rw [iha, ihb]
      cases sAnalyze π a with
      | error e => cases sAnalyze π b <;> rfl
      | ok s1 =>
          cases sAnalyze π b with
          | error e => rfl
          | ok s2 =>
              show vstack2Node (projAnn s1) (projAnn s2) = _
              rw [vstack2Node_proj s1 s2]
              all_goals rfl

theorem affSlot_ne_unknown {c : Curvature} (h : affSlot c = true) :
    c ≠ Curvature.UNKNOWN := fun he => by
  rw [he] at h; exact absurd h (by decide)

theorem cvxBase_ne_unknown {c : Curvature} (h : cvxBase c = true) :
    c ≠ Curvature.UNKNOWN := fun he => by
  rw [he] at h; exact absurd h (by decide)

theorem ccvBase_ne_unknown {c : Curvature} (h : ccvBase c = true) :
    c ≠ Curvature.UNKNOWN := fun he => by
  rw [he] at h; exact absurd h (by decide)

theorem cvxSlot_ne_unknown {c : Curvature} {m : Monotonicity}
    (h : cvxSlot (c, m) = true) : c ≠ Curvature.UNKNOWN := fun he => by
  rw [he] at h; revert h; cases m <;> decide

theorem ccvSlot_ne_unknown {c : Curvature} {m : Monotonicity}
    (h : ccvSlot (c, m) = true) : c ≠ Curvature.UNKNOWN := fun he => by
  rw [he] at h; revert h; cases m <;> decide

theorem cvxSlot_dec (c : Curvature) : cvxSlot (c, DECREASING) = ccvBase c := by
  cases c <;> rfl

theorem ccvSlot_dec (c : Curvature) : ccvSlot (c, DECREASING) = cvxBase c := by
  cases c <;> rfl

theorem cvxSlot_nonmono (c : Curvature) :
    cvxSlot (c, NONMONOTONE) = affSlot c := by
  cases c <;> rfl

theorem curvApply_pair_comm (c : Curvature) (m1 m2 : Monotonicity) :
    curvApply AFFINE [(c, m1), (CONSTANT, m2)] =
      curvApply AFFINE [(CONSTANT, m2), (c, m1)] := by
  cases c <;> cases m1 <;> cases m2 <;> rfl

theorem signMeans_neg {s : Sign} {x : ℝ} (h : SignMeans s x) :
    SignMeans (sign_neg s) (-x) := by
  cases s <;> simp only [SignMeans, sign_neg] at h ⊢ <;>
    first
      | trivial
      | linarith
      | (rw [h]; exact neg_zero)

theorem signMeans_inv {s : Sign} {y : ℝ} (h : SignMeans s y) :
    SignMeans s y⁻¹ := by
  cases s <;> simp only [SignMeans] at h ⊢
  · exact inv_nonneg.2 h
  · exact inv_nonpos.2 h
  · rw [h]; exact inv_zero

theorem signMeans_div {s t : Sign} {x y : ℝ} (hx : SignMeans s x)
    (hy : SignMeans t y) : SignMeans (sign_mul s t) (x / y) := by
  rw [div_eq_mul_inv]
  exact signMeans_mul hx (signMeans_inv hy)

theorem curvMeansOn_empty (c : Curvature) (f : (ℕ → ℝ) → ℝ) :
    CurvMeansOn ∅ c f := by
  cases c
  · exact ⟨convex_empty, 0, fun ρ h => absurd h (Set.not_mem_empty ρ)⟩
  · exact ⟨⟨convex_empty, fun x hx => absurd hx (Set.not_mem_empty x)⟩,
      ⟨convex_empty, fun x hx => absurd hx (Set.not_mem_empty x)⟩⟩
  · exact ⟨convex_empty, fun x hx => absurd hx (Set.not_mem_empty x)⟩
  · exact ⟨convex_empty, fun x hx => absurd hx (Set.not_mem_empty x)⟩
  · exact trivial

theorem curvMeansOn_convex_dom {D : Set (ℕ → ℝ)} {c : Curvature}
    {f : (ℕ → ℝ) → ℝ} (h : CurvMeansOn D c f) (hc : c ≠ Curvature.UNKNOWN) :
    Convex ℝ D := by
  cases c
  · exact h.1
  · exact h.1.1
  · exact h.1
  · exact h.1
  · exact absurd rfl hc

theorem curvMeansOn_subset {D D' : Set (ℕ → ℝ)} {c : Curvature}
    {f : (ℕ → ℝ) → ℝ} (h : CurvMeansOn D c f) (hsub : D' ⊆ D)
    (hD' : Convex ℝ D') : CurvMeansOn D' c f := by
  cases c
  · obtain ⟨_, k, hk⟩ := h
    exact ⟨hD', k, fun ρ hρ => hk ρ (hsub hρ)⟩
  · exact ⟨h.1.subset hsub hD', h.2.subset hsub hD'⟩
  · exact h.subset hsub hD'
  · exact h.subset hsub hD'
  · exact trivial

theorem curvMeansOn_congr {D : Set (ℕ → ℝ)} {c : Curvature}
    {f f' : (ℕ → ℝ) → ℝ} (h : CurvMeansOn D c f) (he : Set.EqOn f f' D) :
    CurvMeansOn D c f' := by
  cases c
  · obtain ⟨hD, k, hk⟩ := h
    refine ⟨hD, k, fun ρ hρ => ?_⟩
    rw [← he hρ]
    exact hk ρ hρ
  · exact ⟨h.1.congr he, h.2.congr he⟩
  · exact h.congr he
  · exact h.congr he
  · exact trivial

theorem cvxOn_of {D : Set (ℕ → ℝ)} {c : Curvature} {f : (ℕ → ℝ) → ℝ}
    (h : CurvMeansOn D c f) (hc : cvxBase c = true) : ConvexOn ℝ D f := by
  cases c
  · obtain ⟨hD, k, hk⟩ := h
    exact (convexOn_const k hD).congr (fun ρ hρ => (hk ρ hρ).symm)
  · exact h.1
  · exact h
  · exact absurd hc (by decide)
  · exact absurd hc (by decide)

theorem ccvOn_of {D : Set (ℕ → ℝ)} {c : Curvature} {f : (ℕ → ℝ) → ℝ}
    (h : CurvMeansOn D c f) (hc : ccvBase c = true) : ConcaveOn ℝ D f := by
  cases c
  · obtain ⟨hD, k, hk⟩ := h
    exact (concaveOn_const k hD).congr (fun ρ hρ => (hk ρ hρ).symm)
  · exact h.2
  · exact absurd hc (by decide)
  · exact h
  · exact absurd hc (by decide)

theorem affOn_of {D : Set (ℕ → ℝ)} {c : Curvature} {f : (ℕ → ℝ) → ℝ}
    (h : CurvMeansOn D c f) (hc : affSlot c = true) :
    ConvexOn ℝ D f ∧ ConcaveOn ℝ D f := by
  refine ⟨cvxOn_of h ?_, ccvOn_of h ?_⟩ <;> cases c <;>
    first
      | rfl
      | exact absurd hc (by decide)

theorem convexOn_add_on {D : Set (ℕ → ℝ)} {f g : (ℕ → ℝ) → ℝ}
    (hf : ConvexOn ℝ D f) (hg : ConvexOn ℝ D g) :
    ConvexOn ℝ D (fun ρ => f ρ + g ρ) := hf.add hg

theorem concaveOn_add_on {D : Set (ℕ → ℝ)} {f g : (ℕ → ℝ) → ℝ}
    (hf : ConcaveOn ℝ D f) (hg : ConcaveOn ℝ D g) :
    ConcaveOn ℝ D (fun ρ => f ρ + g ρ) := hf.add hg

theorem convexOn_sub_on {D : Set (ℕ → ℝ)} {f g : (ℕ → ℝ) → ℝ}
    (hf : ConvexOn ℝ D f) (hg : ConcaveOn ℝ D g) :
    ConvexOn ℝ D (fun ρ => f ρ - g ρ) := hf.sub hg

theorem concaveOn_sub_on {D : Set (ℕ → ℝ)} {f g : (ℕ → ℝ) → ℝ}
    (hf : ConcaveOn ℝ D f) (hg : ConvexOn ℝ D g) :
    ConcaveOn ℝ D (fun ρ => f ρ - g ρ) := hf.sub hg

theorem convexOn_smul_on (q : ℝ) {D : Set (ℕ → ℝ)} {f : (ℕ → ℝ) → ℝ}
    (hq : 0 ≤ q) (hf : ConvexOn ℝ D f) :
    ConvexOn ℝ D (fun ρ => q * f ρ) := by
  simpa [smul_eq_mul] using hf.smul hq

theorem concaveOn_smul_on (q : ℝ) {D : Set (ℕ → ℝ)} {f : (ℕ → ℝ) → ℝ}
    (hq : 0 ≤ q) (hf : ConcaveOn ℝ D f) :
    ConcaveOn ℝ D (fun ρ => q * f ρ) := by
  simpa [smul_eq_mul] using hf.smul hq

theorem convexOn_smul_nonpos_on (q : ℝ) {D : Set (ℕ → ℝ)} {f : (ℕ → ℝ) → ℝ}
    (hq : q ≤ 0) (hf : ConcaveOn ℝ D f) :
    ConvexOn ℝ D (fun ρ => q * f ρ) := by
  refine ⟨hf.1, ?_⟩
  intro x hx y hy a b ha hb hab
  have h1 := hf.2 hx hy ha hb hab
  simp only [smul_eq_mul] at h1 ⊢
  have h2 := mul_le_mul_of_nonpos_left h1 hq
  linarith [h2]

theorem concaveOn_smul_nonpos_on (q : ℝ) {D : Set (ℕ → ℝ)} {f : (ℕ → ℝ) → ℝ}
    (hq : q ≤ 0) (hf : ConvexOn ℝ D f) :
    ConcaveOn ℝ D (fun ρ => q * f ρ) := by
  refine ⟨hf.1, ?_⟩
  intro x hx y hy a b ha hb hab
  have h1 := hf.2 hx hy ha hb hab
  simp only [smul_eq_mul] at h1 ⊢
  have h2 := mul_le_mul_of_nonpos_left h1 hq
  linarith [h2]

theorem affine_combo_on {D : Set (ℕ → ℝ)} {f : (ℕ → ℝ) → ℝ}
    (h1 : ConvexOn ℝ D f) (h2 : ConcaveOn ℝ D f) {x y : ℕ → ℝ}
    (hx : x ∈ D) (hy : y ∈ D) (a b : ℝ) (ha : 0 ≤ a) (hb : 0 ≤ b)
    (hab : a + b = 1) : f (a • x + b • y) = a * f x + b * f y := by
  have hle := h1.2 hx hy ha hb hab
  have hge := h2.2 hx hy ha hb hab
  simp only [smul_eq_mul] at hle hge
  exact le_antisymm hle hge

theorem convexOn_sq_affine_on {D : Set (ℕ → ℝ)} {f : (ℕ → ℝ) → ℝ}
    (h1 : ConvexOn ℝ D f) (h2 : ConcaveOn ℝ D f) :
    ConvexOn ℝ D (fun ρ => f ρ ^ 2) := by
  refine ⟨h1.1, ?_⟩
  intro x hx y hy a b ha hb hab
  simp only [smul_eq_mul]
  rw [affine_combo_on h1 h2 hx hy a b ha hb hab]
  nlinarith [mul_nonneg (mul_nonneg ha hb) (sq_nonneg (f x - f y))]

theorem convexOn_sq_nonneg_on {D : Set (ℕ → ℝ)} {f : (ℕ → ℝ) → ℝ}
    (hf : ConvexOn ℝ D f) (h0 : ∀ ρ ∈ D, 0 ≤ f ρ) :
    ConvexOn ℝ D (fun ρ => f ρ ^ 2) := by
  refine ⟨hf.1, ?_⟩
  intro x hx y hy a b ha hb hab
  simp only [smul_eq_mul]
  have hz : a • x + b • y ∈ D := hf.1 hx hy ha hb hab
  have hcomb := hf.2 hx hy ha hb hab
  simp only [smul_eq_mul] at hcomb
  have h1 : f (a • x + b • y) ^ 2 ≤ (a * f x + b * f y) ^ 2 :=
    pow_le_pow_left₀ (h0 _ hz) hcomb 2
  have h2 : (a * f x + b * f y) ^ 2 ≤ a * f x ^ 2 + b * f y ^ 2 := by
    nlinarith [mul_nonneg (mul_nonneg ha hb) (sq_nonneg (f x - f y))]
  exact le_trans h1 h2

theorem convexOn_sq_nonpos_on {D : Set (ℕ → ℝ)} {f : (ℕ → ℝ) → ℝ}
    (hf : ConcaveOn ℝ D f) (h0 : ∀ ρ ∈ D, f ρ ≤ 0) :
    ConvexOn ℝ D (fun ρ => f ρ ^ 2) := by
  refine ⟨hf.1, ?_⟩
  intro x hx y hy a b ha hb hab
  simp only [smul_eq_mul]
  have hz : a • x + b • y ∈ D := hf.1 hx hy ha hb hab
  have hcomb := hf.2 hx hy ha hb hab
  simp only [smul_eq_mul] at hcomb
  have h1 : f (a • x + b • y) ^ 2 ≤ (a * f x + b * f y) ^ 2 := by
    have h3 := pow_le_pow_left₀ (neg_nonneg.2 (h0 _ hz)) (neg_le_neg hcomb) 2
    rw [neg_sq, neg_sq] at h3
    exact h3
  have h2 : (a * f x + b * f y) ^ 2 ≤ a * f x ^ 2 + b * f y ^ 2 := by
    nlinarith [mul_nonneg (mul_nonneg ha hb) (sq_nonneg (f x - f y))]
  exact le_trans h1 h2

theorem concaveOn_sqrt_comp {D : Set (ℕ → ℝ)} {g : (ℕ → ℝ) → ℝ}
    (hg : ConcaveOn ℝ D g) :
    ConcaveOn ℝ (D ∩ {ρ | 0 ≤ g ρ}) (fun ρ => Real.sqrt (g ρ)) := by
  have hDc : Convex ℝ (D ∩ {ρ | 0 ≤ g ρ}) := by
    intro x hx y hy a b ha hb hab
    refine ⟨hg.1 hx.1 hy.1 ha hb hab, ?_⟩
    have h1 := hg.2 hx.1 hy.1 ha hb hab
    simp only [smul_eq_mul] at h1
    have h2 : (0 : ℝ) ≤ a * g x + b * g y :=
      add_nonneg (mul_nonneg ha hx.2) (mul_nonneg hb hy.2)
    exact le_trans h2 h1
  refine ⟨hDc, ?_⟩
  intro x hx y hy a b ha hb hab
  have h1 := hg.2 hx.1 hy.1 ha hb hab
  simp only [smul_eq_mul] at h1 ⊢
  have hsq := (Real.strictConcaveOn_sqrt.concaveOn).2
    (Set.mem_Ici.mpr hx.2) (Set.mem_Ici.mpr hy.2) ha hb hab
  simp only [smul_eq_mul] at hsq
  calc a * Real.sqrt (g x) + b * Real.sqrt (g y)
      ≤ Real.sqrt (a * g x + b * g y) := hsq
    _ ≤ Real.sqrt (g (a • x + b • y)) := Real.sqrt_le_sqrt h1

theorem convexOn_sum_entries {D : Set (ℕ → ℝ)} (hD : Convex ℝ D) :
    ∀ ts : List SEntry, (∀ t ∈ ts, ConvexOn ℝ D t.fn) →
      ConvexOn ℝ D (fun ρ => (ts.map (fun t => t.fn ρ)).sum) := by
  intro ts
  induction ts with
  | nil =>
      intro _
      exact convexOn_const 0 hD
  | cons t ts ih =>
      intro h
      exact convexOn_add_on (h t (List.mem_cons_self t ts))
        (ih (fun u hu => h u (List.mem_cons_of_mem t hu)))

theorem concaveOn_sum_entries {D : Set (ℕ → ℝ)} (hD : Convex ℝ D) :
    ∀ ts : List SEntry, (∀ t ∈ ts, ConcaveOn ℝ D t.fn) →
      ConcaveOn ℝ D (fun ρ => (ts.map (fun t => t.fn ρ)).sum) := by
  intro ts
  induction ts with
  | nil =>
      intro _
      exact concaveOn_const 0 hD
  | cons t ts ih =>
      intro h
      exact concaveOn_add_on (h t (List.mem_cons_self t ts))
        (ih (fun u hu => h u (List.mem_cons_of_mem t hu)))

theorem list_map_sum_fin (l : List α) (g : α → ℝ) :
    (l.map g).sum = ∑ i : Fin l.length, g (l.get i) := by
  conv_lhs => rw [← List.ofFn_get l]
  rw [List.map_ofFn, List.sum_ofFn]
  rfl

theorem euclid_minkowski (n : ℕ) (u v : Fin n → ℝ) (a b : ℝ)
    (ha : 0 ≤ a) (hb : 0 ≤ b) :
    Real.sqrt (∑ i, (a * u i + b * v i) ^ 2) ≤
      a * Real.sqrt (∑ i, u i ^ 2) + b * Real.sqrt (∑ i, v i ^ 2) := by
  have hnorm : ∀ z : EuclideanSpace ℝ (Fin n),
      ‖z‖ = Real.sqrt (∑ i, z i ^ 2) := by
    intro z
    rw [EuclideanSpace.norm_eq]
    congr 1
    exact Finset.sum_congr rfl fun i _ => by rw [Real.norm_eq_abs, sq_abs]
  obtain ⟨U, hU⟩ : ∃ U : EuclideanSpace ℝ (Fin n), ∀ i, U i = u i :=
    ⟨(WithLp.equiv 2 (Fin n → ℝ)).symm u, fun i => rfl⟩
  obtain ⟨V, hV⟩ : ∃ V : EuclideanSpace ℝ (Fin n), ∀ i, V i = v i :=
    ⟨(WithLp.equiv 2 (Fin n → ℝ)).symm v, fun i => rfl⟩
  have happ : ∀ i, (a • U + b • V) i = a * u i + b * v i := by
    intro i
    have h1 : (a • U + b • V) i = a * U i + b * V i := rfl
    rw [h1, hU i, hV i]
  have key1 : Real.sqrt (∑ i, (a * u i + b * v i) ^ 2) = ‖a • U + b • V‖ := by
    rw [hnorm]
    congr 1
    exact Finset.sum_congr rfl fun i _ => by rw [happ i]
  have key2 : ‖U‖ = Real.sqrt (∑ i, u i ^ 2) := by
    rw [hnorm]
    congr 1
    exact Finset.sum_congr rfl fun i _ => by rw [hU i]
  have key3 : ‖V‖ = Real.sqrt (∑ i, v i ^ 2) := by
    rw [hnorm]
    congr 1
    exact Finset.sum_congr rfl fun i _ => by rw [hV i]
  calc Real.sqrt (∑ i, (a * u i + b * v i) ^ 2)
      = ‖a • U + b • V‖ := key1
    _ ≤ ‖a • U‖ + ‖b • V‖ := norm_add_le _ _
    _ = a * ‖U‖ + b * ‖V‖ := by
        rw [norm_smul, norm_smul, Real.norm_eq_abs, Real.norm_eq_abs,
          abs_of_nonneg ha, abs_of_nonneg hb]
    _ = a * Real.sqrt (∑ i, u i ^ 2) + b * Real.sqrt (∑ i, v i ^ 2) := by
        rw [key2, key3]

theorem convexOn_sqrt_sum_sq {D : Set (ℕ → ℝ)} (hD : Convex ℝ D)
    (ts : List SEntry)
    (hf : ∀ t ∈ ts, ConvexOn ℝ D t.fn ∧ ConcaveOn ℝ D t.fn) :
    ConvexOn ℝ D (fun ρ => Real.sqrt ((ts.map (fun t => t.fn ρ ^ 2)).sum)) := by
  refine ⟨hD, ?_⟩
  intro x hx y hy a b ha hb hab
  simp only [smul_eq_mul]
  have key : ∀ w : ℕ → ℝ, ((ts.map (fun t => t.fn w ^ 2)).sum) =
      ∑ i : Fin ts.length, (ts.get i).fn w ^ 2 := by
    intro w
    exact list_map_sum_fin ts (fun t => t.fn w ^ 2)
  rw [key, key, key]
  have hstep : ∀ i : Fin ts.length, (ts.get i).fn (a • x + b • y) =
      a * (ts.get i).fn x + b * (ts.get i).fn y := by
    intro i
    have hfi := hf (ts.get i) (List.get_mem ts i.1 i.2)
    exact affine_combo_on hfi.1 hfi.2 hx hy a b ha hb hab
  have hsum : (∑ i : Fin ts.length, (ts.get i).fn (a • x + b • y) ^ 2) =
      ∑ i : Fin ts.length, (a * (ts.get i).fn x + b * (ts.get i).fn y) ^ 2 :=
    Finset.sum_congr rfl fun i _ => by rw [hstep i]
  rw [hsum]
  exact euclid_minkowski ts.length (fun i => (ts.get i).fn x)
    (fun i => (ts.get i).fn y) a b ha hb

theorem curv_smul_core (s1 : Sign) (k : ℝ) (m2 : Monotonicity)
    (c2 : Curvature) {D1 D2 : Set (ℕ → ℝ)} {f2 : (ℕ → ℝ) → ℝ}
    (hD1 : Convex ℝ D1) (hk : SignMeans s1 k) (h2 : CurvMeansOn D2 c2 f2) :
    CurvMeansOn (D1 ∩ D2)
      (curvApply AFFINE [(CONSTANT, m2), (c2, monoOfSign s1)])
      (fun ρ => k * f2 ρ) := by
  cases hv : curvApply AFFINE [(CONSTANT, m2), (c2, monoOfSign s1)] with
  | CONSTANT =>
      obtain ⟨hb, _⟩ := curvApply_eq_CONSTANT hv
      exact absurd hb (by decide)
  | AFFINE =>
      obtain ⟨_, hargs⟩ := curvApply_eq_AFFINE hv
      rw [List.all_eq_true] at hargs
      have hs2 : affSlot c2 = true := hargs (c2, monoOfSign s1) (by simp)
      have hD : Convex ℝ (D1 ∩ D2) :=
        hD1.inter (curvMeansOn_convex_dom h2 (affSlot_ne_unknown hs2))
      have hp := affOn_of (curvMeansOn_subset h2 Set.inter_subset_right hD) hs2
      rcases le_total 0 k with hq | hq
      · exact ⟨convexOn_smul_on k hq hp.1, concaveOn_smul_on k hq hp.2⟩
      · exact ⟨convexOn_smul_nonpos_on k hq hp.2,
          concaveOn_smul_nonpos_on k hq hp.1⟩
  | CONVEX =>
      obtain ⟨_, hargs⟩ := curvApply_eq_CONVEX hv
      rw [List.all_eq_true] at hargs
      have hs2 : cvxSlot (c2, monoOfSign s1) = true :=
        hargs (c2, monoOfSign s1) (by simp)
      have hD : Convex ℝ (D1 ∩ D2) :=
        hD1.inter (curvMeansOn_convex_dom h2 (cvxSlot_ne_unknown hs2))
      have h2' := curvMeansOn_subset h2 Set.inter_subset_right hD
      cases hc : c2 with
      | CONSTANT =>
          rw [hc] at h2'
          have hp := affOn_of h2' rfl
          rcases le_total 0 k with hq | hq
          · exact convexOn_smul_on k hq hp.1
          · exact convexOn_smul_nonpos_on k hq hp.2
      | AFFINE =>
          rw [hc] at h2'
          have hp := affOn_of h2' rfl
          rcases le_total 0 k with hq | hq
          · exact convexOn_smul_on k hq hp.1
          · exact convexOn_smul_nonpos_on k hq hp.2
      | CONVEX =>
          rw [hc] at h2' hs2
          have hm := mono_inc_of_cvxSlot_convex hs2
          exact convexOn_smul_on k (nonneg_of_mono_inc hm hk) h2'
      | CONCAVE =>
          rw [hc] at h2' hs2
          have hm := mono_dec_of_cvxSlot_concave hs2
          exact convexOn_smul_nonpos_on k (nonpos_of_mono_dec hm hk) h2'
      | UNKNOWN =>
          rw [hc] at hs2
          exact absurd hs2 (by cases hm : monoOfSign s1 <;> decide)
  | CONCAVE =>
      obtain ⟨_, hargs⟩ := curvApply_eq_CONCAVE hv
      rw [List.all_eq_true] at hargs
      have hs2 : ccvSlot (c2, monoOfSign s1) = true :=
        hargs (c2, monoOfSign s1) (by simp)
      have hD : Convex ℝ (D1 ∩ D2) :=
        hD1.inter (curvMeansOn_convex_dom h2 (ccvSlot_ne_unknown hs2))
      have h2' := curvMeansOn_subset h2 Set.inter_subset_right hD
      cases hc : c2 with
      | CONSTANT =>
          rw [hc] at h2'
          have hp := affOn_of h2' rfl
          rcases le_total 0 k with hq | hq
          · exact concaveOn_smul_on k hq hp.2
          · exact concaveOn_smul_nonpos_on k hq hp.1
      | AFFINE =>
          rw [hc] at h2'
          have hp := affOn_of h2' rfl
          rcases le_total 0 k with hq | hq
          · exact concaveOn_smul_on k hq hp.2
          · exact concaveOn_smul_nonpos_on k hq hp.1
      | CONCAVE =>
          rw [hc] at h2' hs2
          have hm := mono_inc_of_ccvSlot_concave hs2
          exact concaveOn_smul_on k (nonneg_of_mono_inc hm hk) h2'
      | CONVEX =>
          rw [hc] at h2' hs2
          have hm := mono_dec_of_ccvSlot_convex hs2
          exact concaveOn_smul_nonpos_on k (nonpos_of_mono_dec hm hk) h2'
      | UNKNOWN =>
          rw [hc] at hs2
          exact absurd hs2 (by cases hm : monoOfSign s1 <;> decide)
  | UNKNOWN => exact trivial

theorem mem_domInter {ρ : ℕ → ℝ} :
    ∀ {ts : List SEntry}, ρ ∈ domInter ts ↔ ∀ t ∈ ts, ρ ∈ t.dm := by
  intro ts
  induction ts with
  | nil =>
      constructor
      · intro _ t ht
        exact absurd ht (List.not_mem_nil t)
      · intro _
        exact Set.mem_univ ρ
  | cons t ts ih =>
      show ρ ∈ t.dm ∩ domInter ts ↔ _
      rw [Set.mem_inter_iff, ih]
      constructor
      · rintro ⟨hh1, hh2⟩ u hu
        rcases List.mem_cons.1 hu with he | hu'
        · rw [he]
          exact hh1
        · exact hh2 u hu'
      · intro hh
        exact ⟨hh t (List.mem_cons_self t ts),
          fun u hu => hh u (List.mem_cons_of_mem t hu)⟩

theorem domInter_subset {t : SEntry} {ts : List SEntry} (ht : t ∈ ts) :
    domInter ts ⊆ t.dm := fun ρ hρ => mem_domInter.1 hρ t ht

theorem convex_domInter : ∀ {ts : List SEntry},
    (∀ t ∈ ts, Convex ℝ t.dm) → Convex ℝ (domInter ts) := by
  intro ts
  induction ts with
  | nil =>
      intro _
      exact convex_univ
  | cons t ts ih =>
      intro h
      exact (h t (List.mem_cons_self t ts)).inter
        (ih (fun u hu => h u (List.mem_cons_of_mem t hu)))

theorem allG_mapG {P : β → Prop} {f : α → β} {g : List (List α)} :
    allG P (mapG f g) ↔ allG (fun x => P (f x)) g := by
  constructor
  · intro h row hrow x hx
    exact h (row.map f) (List.mem_map_of_mem _ hrow) (f x)
      (List.mem_map_of_mem _ hx)
  · intro h row hrow x hx
    rcases List.mem_map.1 hrow with ⟨r, hr, rfl⟩
    rcases List.mem_map.1 hx with ⟨y, hy, rfl⟩
    exact h r hr y hy

theorem all_of_mem_zipWith {f : α → β → γ} :
    ∀ (l1 : List α) (l2 : List β) (z : γ), z ∈ List.zipWith f l1 l2 →
      ∃ x ∈ l1, ∃ y ∈ l2, z = f x y := by
  intro l1
  induction l1 with
  | nil =>
      intro l2 z hz
      exact absurd hz (by simp)
  | cons a as ih =>
      intro l2 z hz
      cases l2 with
      | nil => exact absurd hz (by simp)
      | cons b bs =>
          rw [List.zipWith_cons_cons] at hz
          rcases List.mem_cons.1 hz with rfl | hz'
          · exact ⟨a, List.mem_cons_self a as, b, List.mem_cons_self b bs, rfl⟩
          · rcases ih bs z hz' with ⟨x, hx, y, hy, he⟩
            exact ⟨x, List.mem_cons_of_mem a hx, y,
              List.mem_cons_of_mem b hy, he⟩

theorem allG_zipG {P : γ → Prop} (f : α → β → γ)
    (g1 : List (List α)) (g2 : List (List β))
    (h : ∀ r1 ∈ g1, ∀ r2 ∈ g2, ∀ x ∈ r1, ∀ y ∈ r2, P (f x y)) :
    allG P (zipG f g1 g2) := by
  intro row hrow z hz
  rcases all_of_mem_zipWith g1 g2 row hrow with ⟨r1, h1, r2, h2, rfl⟩
  rcases all_of_mem_zipWith r1 r2 z hz with ⟨x, hx, y, hy, rfl⟩
  exact h r1 h1 r2 h2 x hx y hy

theorem mem_of_zipConsG {x : α} :
    ∀ (l : List α) (rs : List (List α)) (row : List α),
      row ∈ zipConsG l rs → x ∈ row → x ∈ l ∨ ∃ r ∈ rs, x ∈ r := by
  intro l
  induction l with
  | nil =>
      intro rs row hrow _
      exact absurd hrow (by simp [zipConsG])
  | cons a as ih =>
      intro rs row hrow hx
      cases rs with
      | nil =>
          simp only [zipConsG] at hrow
          rcases List.mem_cons.1 hrow with rfl | hrow'
          · left
            rcases List.mem_cons.1 hx with rfl | hx'
            · exact List.mem_cons_self _ _
            · exact absurd hx' (by simp)
          · rcases ih [] row hrow' hx with h | ⟨r, hr, _⟩
            · exact Or.inl (List.mem_cons_of_mem a h)
            · exact absurd hr (by simp)
      | cons r rs =>
          simp only [zipConsG] at hrow
          rcases List.mem_cons.1 hrow with rfl | hrow'
          · rcases List.mem_cons.1 hx with rfl | hx'
            · exact Or.inl (List.mem_cons_self _ _)
            · exact Or.inr ⟨r, List.mem_cons_self _ _, hx'⟩
          · rcases ih rs row hrow' hx with h | ⟨r', hr', hx'⟩
            · exact Or.inl (List.mem_cons_of_mem a h)
            · exact Or.inr ⟨r', List.mem_cons_of_mem r hr', hx'⟩

theorem allG_transposeG {P : α → Prop} :
    ∀ {g : List (List α)}, allG P g → allG P (transposeG g) := by
  intro g
  induction g with
  | nil =>
      intro _ row hrow x _
      exact absurd hrow (by simp [transposeG])
  | cons r rs ih =>
      intro h row hrow x hx
      simp only [transposeG] at hrow
      rcases mem_of_zipConsG r (transposeG rs) row hrow hx with hxr | ⟨row', hrow', hx'⟩
      · exact h r (List.mem_cons_self r rs) x hxr
      · exact ih (fun r' hr' y hy => h r' (List.mem_cons_of_mem r hr') y hy)
          row' hrow' x hx'

theorem soundEntry_default : SoundEntry (default : SEntry) := by
  constructor
  · intro ρ _
    show (0 : ℝ) ≤ 0
    exact le_refl 0
  · exact ⟨convex_univ, 0, fun ρ _ => rfl⟩

theorem soundEntry_entry00 {g : List (List SEntry)}
    (hg : allG SoundEntry g) : SoundEntry (entry00 g) := by
  cases g with
  | nil => exact soundEntry_default
  | cons r g' =>
      cases r with
      | nil => exact soundEntry_default
      | cons t r' =>
          exact hg (t :: r') (List.mem_cons_self _ _) t (List.mem_cons_self _ _)

theorem cv_const_of_isConstAnn {a : SAnn} (h : isConstAnn (projAnn a) = true) :
    ∀ row ∈ a.g, ∀ t ∈ row, t.cv = CONSTANT := by
  intro row hrow t ht
  simp only [isConstAnn, projAnn, mapG] at h
  rw [List.all_eq_true] at h
  have h1 := h (row.map SEntry.cv) (List.mem_map_of_mem _ hrow)
  rw [List.all_eq_true] at h1
  have h2 := h1 (SEntry.cv t) (List.mem_map_of_mem _ ht)
  cases hcv : t.cv <;>
    first
      | rfl
      | (rw [hcv] at h2; exact absurd h2 (by decide))

theorem cv_entry00_const {a : SAnn} (h : isConstAnn (projAnn a) = true) :
    (entry00 a.g).cv = CONSTANT := by
  have hc := cv_const_of_isConstAnn h
  cases hg : a.g with
  | nil => rfl
  | cons r g' =>
      cases hr : r with
      | nil => rfl
      | cons t r' =>
          exact hc (t :: r') (by rw [hg, hr]; exact List.mem_cons_self _ _) t
            (List.mem_cons_self _ _)

theorem sAddEntry_sound {t1 t2 : SEntry} (h1 : SoundEntry t1)
    (h2 : SoundEntry t2) : SoundEntry (sAddEntry t1 t2) := by
  obtain ⟨hs1, hc1⟩ := h1
  obtain ⟨hs2, hc2⟩ := h2
  constructor
  · intro ρ hρ
    exact signMeans_add (hs1 ρ hρ.1) (hs2 ρ hρ.2)
  · show CurvMeansOn (t1.dm ∩ t2.dm)
      (curvApply AFFINE [(t1.cv, INCREASING), (t2.cv, INCREASING)])
      (fun ρ => t1.fn ρ + t2.fn ρ)
    cases hv : curvApply AFFINE [(t1.cv, INCREASING), (t2.cv, INCREASING)] with
    | CONSTANT =>
        obtain ⟨hb, _⟩ := curvApply_eq_CONSTANT hv
        exact absurd hb (by decide)
    | AFFINE =>
        obtain ⟨_, hargs⟩ := curvApply_eq_AFFINE hv
        rw [List.all_eq_true] at hargs
        have ha1 : affSlot t1.cv = true := hargs (t1.cv, INCREASING) (by simp)
        have ha2 : affSlot t2.cv = true := hargs (t2.cv, INCREASING) (by simp)
        have hD : Convex ℝ (t1.dm ∩ t2.dm) :=
          (curvMeansOn_convex_dom hc1 (affSlot_ne_unknown ha1)).inter
            (curvMeansOn_convex_dom hc2 (affSlot_ne_unknown ha2))
        have hp1 := affOn_of (curvMeansOn_subset hc1 Set.inter_subset_left hD) ha1
        have hp2 := affOn_of (curvMeansOn_subset hc2 Set.inter_subset_right hD) ha2
        exact ⟨convexOn_add_on hp1.1 hp2.1, concaveOn_add_on hp1.2 hp2.2⟩
    | CONVEX =>
        obtain ⟨_, hargs⟩ := curvApply_eq_CONVEX hv
        rw [List.all_eq_true] at hargs
        have ha1 : cvxSlot (t1.cv, INCREASING) = true :=
          hargs (t1.cv, INCREASING) (by simp)
        have ha2 : cvxSlot (t2.cv, INCREASING) = true :=
          hargs (t2.cv, INCREASING) (by simp)
        rw [cvxSlot_inc] at ha1 ha2
        have hD : Convex ℝ (t1.dm ∩ t2.dm) :=
          (curvMeansOn_convex_dom hc1 (cvxBase_ne_unknown ha1)).inter
            (curvMeansOn_convex_dom hc2 (cvxBase_ne_unknown ha2))
        exact convexOn_add_on
          (cvxOn_of (curvMeansOn_subset hc1 Set.inter_subset_left hD) ha1)
          (cvxOn_of (curvMeansOn_subset hc2 Set.inter_subset_right hD) ha2)
    | CONCAVE =>
        obtain ⟨_, hargs⟩ := curvApply_eq_CONCAVE hv
        rw [List.all_eq_true] at hargs
        have ha1 : ccvSlot (t1.cv, INCREASING) = true :=
          hargs (t1.cv, INCREASING) (by simp)
        have ha2 : ccvSlot (t2.cv, INCREASING) = true :=
          hargs (t2.cv, INCREASING) (by simp)
        rw [ccvSlot_inc] at ha1 ha2
        have hD : Convex ℝ (t1.dm ∩ t2.dm) :=
          (curvMeansOn_convex_dom hc1 (ccvBase_ne_unknown ha1)).inter
            (curvMeansOn_convex_dom hc2 (ccvBase_ne_unknown ha2))
        exact concaveOn_add_on
          (ccvOn_of (curvMeansOn_subset hc1 Set.inter_subset_left hD) ha1)
          (ccvOn_of (curvMeansOn_subset hc2 Set.inter_subset_right hD) ha2)
    | UNKNOWN => exact trivial

theorem sSubEntry_sound {t1 t2 : SEntry} (h1 : SoundEntry t1)
    (h2 : SoundEntry t2) : SoundEntry (sSubEntry t1 t2) := by
  obtain ⟨hs1, hc1⟩ := h1
  obtain ⟨hs2, hc2⟩ := h2
  constructor
  · intro ρ hρ
    show SignMeans (sign_add t1.sg (sign_neg t2.sg)) (t1.fn ρ - t2.fn ρ)
    rw [sub_eq_add_neg]
    exact signMeans_add (hs1 ρ hρ.1) (signMeans_neg (hs2 ρ hρ.2))
  · show CurvMeansOn (t1.dm ∩ t2.dm)
      (curvApply AFFINE [(t1.cv, INCREASING), (t2.cv, DECREASING)])
      (fun ρ => t1.fn ρ - t2.fn ρ)
    cases hv : curvApply AFFINE [(t1.cv, INCREASING), (t2.cv, DECREASING)] with
    | CONSTANT =>
        obtain ⟨hb, _⟩ := curvApply_eq_CONSTANT hv
        exact absurd hb (by decide)
    | AFFINE =>
        obtain ⟨_, hargs⟩ := curvApply_eq_AFFINE hv
        rw [List.all_eq_true] at hargs
        have ha1 : affSlot t1.cv = true := hargs (t1.cv, INCREASING) (by simp)
        have ha2 : affSlot t2.cv = true := hargs (t2.cv, DECREASING) (by simp)
        have hD : Convex ℝ (t1.dm ∩ t2.dm) :=
          (curvMeansOn_convex_dom hc1 (affSlot_ne_unknown ha1)).inter
            (curvMeansOn_convex_dom hc2 (affSlot_ne_unknown ha2))
        have hp1 := affOn_of (curvMeansOn_subset hc1 Set.inter_subset_left hD) ha1
        have hp2 := affOn_of (curvMeansOn_subset hc2 Set.inter_subset_right hD) ha2
        exact ⟨convexOn_sub_on hp1.1 hp2.2, concaveOn_sub_on hp1.2 hp2.1⟩
    | CONVEX =>
        obtain ⟨_, hargs⟩ := curvApply_eq_CONVEX hv
        rw [List.all_eq_true] at hargs
        have ha1 : cvxSlot (t1.cv, INCREASING) = true :=
          hargs (t1.cv, INCREASING) (by simp)
        have ha2 : cvxSlot (t2.cv, DECREASING) = true :=
          hargs (t2.cv, DECREASING) (by simp)
        rw [cvxSlot_inc] at ha1
        rw [cvxSlot_dec] at ha2
        have hD : Convex ℝ (t1.dm ∩ t2.dm) :=
          (curvMeansOn_convex_dom hc1 (cvxBase_ne_unknown ha1)).inter
            (curvMeansOn_convex_dom hc2 (ccvBase_ne_unknown ha2))
        exact convexOn_sub_on
          (cvxOn_of (curvMeansOn_subset hc1 Set.inter_subset_left hD) ha1)
          (ccvOn_of (curvMeansOn_subset hc2 Set.inter_subset_right hD) ha2)
    | CONCAVE =>
        obtain ⟨_, hargs⟩ := curvApply_eq_CONCAVE hv
        rw [List.all_eq_true] at hargs
        have ha1 : ccvSlot (t1.cv, INCREASING) = true :=
          hargs (t1.cv, INCREASING) (by simp)
        have ha2 : ccvSlot (t2.cv, DECREASING) = true :=
          hargs (t2.cv, DECREASING) (by simp)
        rw [ccvSlot_inc] at ha1
        rw [ccvSlot_dec] at ha2
        have hD : Convex ℝ (t1.dm ∩ t2.dm) :=
          (curvMeansOn_convex_dom hc1 (ccvBase_ne_unknown ha1)).inter
            (curvMeansOn_convex_dom hc2 (cvxBase_ne_unknown ha2))
        exact concaveOn_sub_on
          (ccvOn_of (curvMeansOn_subset hc1 Set.inter_subset_left hD) ha1)
          (cvxOn_of (curvMeansOn_subset hc2 Set.inter_subset_right hD) ha2)
    | UNKNOWN => exact trivial

theorem sMulEntry_sound {t1 t2 : SEntry} (h1 : SoundEntry t1)
    (h2 : SoundEntry t2) (hconst : t1.cv = CONSTANT ∨ t2.cv = CONSTANT) :
    SoundEntry (sMulEntry t1 t2) := by
  obtain ⟨hs1, hc1⟩ := h1
  obtain ⟨hs2, hc2⟩ := h2
  constructor
  · intro ρ hρ
    exact signMeans_mul (hs1 ρ hρ.1) (hs2 ρ hρ.2)
  · show CurvMeansOn (t1.dm ∩ t2.dm)
      (curvApply AFFINE [(t1.cv, monoOfSign t2.sg), (t2.cv, monoOfSign t1.sg)])
      (fun ρ => t1.fn ρ * t2.fn ρ)
    rcases Set.eq_empty_or_nonempty (t1.dm ∩ t2.dm) with he | ⟨ρ0, hρ0⟩
    · rw [he]
      exact curvMeansOn_empty _ _
    · rcases hconst with hcst | hcst
      · rw [hcst] at hc1
        obtain ⟨hD1, k, hk⟩ := hc1
        have hksign : SignMeans t1.sg k := by
          have htmp := hs1 ρ0 hρ0.1
          rw [hk ρ0 hρ0.1] at htmp
          exact htmp
        have hcore := curv_smul_core t1.sg k (monoOfSign t2.sg) t2.cv hD1 hksign hc2
        rw [hcst]
        refine curvMeansOn_congr hcore ?_
        intro ρ hρ
        show k * t2.fn ρ = t1.fn ρ * t2.fn ρ
        rw [hk ρ hρ.1]
      · rw [hcst] at hc2
        obtain ⟨hD2, k, hk⟩ := hc2
        have hksign : SignMeans t2.sg k := by
          have htmp := hs2 ρ0 hρ0.2
          rw [hk ρ0 hρ0.2] at htmp
          exact htmp
        have hcore := curv_smul_core t2.sg k (monoOfSign t1.sg) t1.cv hD2 hksign hc1
        rw [hcst, curvApply_pair_comm, Set.inter_comm]
        refine curvMeansOn_congr hcore ?_
        intro ρ hρ
        show k * t1.fn ρ = t1.fn ρ * t2.fn ρ
        rw [hk ρ hρ.1, mul_comm]

theorem sDivEntry_sound {t1 t2 : SEntry} (h1 : SoundEntry t1)
    (h2 : SoundEntry t2) (hconst : t2.cv = CONSTANT) :
    SoundEntry (sDivEntry t1 t2) := by
  obtain ⟨hs1, hc1⟩ := h1
  obtain ⟨hs2, hc2⟩ := h2
  constructor
  · intro ρ hρ
    exact signMeans_div (hs1 ρ hρ.1) (hs2 ρ hρ.2)
  · show CurvMeansOn (t1.dm ∩ t2.dm)
      (curvApply AFFINE [(t1.cv, monoOfSign t2.sg), (t2.cv, monoOfSign t1.sg)])
      (fun ρ => t1.fn ρ / t2.fn ρ)
    rcases Set.eq_empty_or_nonempty (t1.dm ∩ t2.dm) with he | ⟨ρ0, hρ0⟩
    · rw [he]
      exact curvMeansOn_empty _ _
    · rw [hconst] at hc2
      obtain ⟨hD2, k, hk⟩ := hc2
      have hksign : SignMeans t2.sg k⁻¹ := by
        have htmp := hs2 ρ0 hρ0.2
        rw [hk ρ0 hρ0.2] at htmp
        exact signMeans_inv htmp
      have hcore := curv_smul_core t2.sg k⁻¹ (monoOfSign t1.sg) t1.cv hD2 hksign hc1
      rw [hconst, curvApply_pair_comm, Set.inter_comm]
      refine curvMeansOn_congr hcore ?_
      intro ρ hρ
      show k⁻¹ * t1.fn ρ = t1.fn ρ / t2.fn ρ
      rw [hk ρ hρ.1, div_eq_mul_inv, mul_comm]

theorem sSquareEntry_sound {t : SEntry} (h : SoundEntry t) :
    SoundEntry (sSquareEntry t) := by
  obtain ⟨hs, hc⟩ := h
  constructor
  · intro ρ hρ
    exact signMeans_square (hs ρ hρ)
  · show CurvMeansOn t.dm (curvApply CONVEX [(t.cv, monoOfSign t.sg)])
      (fun ρ => t.fn ρ ^ 2)
    cases hv : curvApply CONVEX [(t.cv, monoOfSign t.sg)] with
    | CONSTANT =>
        obtain ⟨hb, _⟩ := curvApply_eq_CONSTANT hv
        exact absurd hb (by decide)
    | AFFINE =>
        obtain ⟨hb, _⟩ := curvApply_eq_AFFINE hv
        exact absurd hb (by decide)
    | CONCAVE =>
        obtain ⟨hb, _⟩ := curvApply_eq_CONCAVE hv
        exact absurd hb (by decide)
    | UNKNOWN => exact trivial
    | CONVEX =>
        obtain ⟨_, hargs⟩ := curvApply_eq_CONVEX hv
        rw [List.all_eq_true] at hargs
        have ha : cvxSlot (t.cv, monoOfSign t.sg) = true :=
          hargs (t.cv, monoOfSign t.sg) (by simp)
        cases hcc : t.cv with
        | CONSTANT =>
            rw [hcc] at hc
            obtain ⟨hD, k, hk⟩ := hc
            show ConvexOn ℝ t.dm (fun ρ => t.fn ρ ^ 2)
            exact (convexOn_const (k ^ 2) hD).congr
              (fun ρ hρ => by show k ^ 2 = t.fn ρ ^ 2; rw [hk ρ hρ])
        | AFFINE =>
            rw [hcc] at hc
            exact convexOn_sq_affine_on hc.1 hc.2
        | CONVEX =>
            rw [hcc] at hc ha
            have hm := mono_inc_of_cvxSlot_convex ha
            exact convexOn_sq_nonneg_on hc
              (fun ρ hρ => nonneg_of_mono_inc hm (hs ρ hρ))
        | CONCAVE =>
            rw [hcc] at hc ha
            have hm := mono_dec_of_cvxSlot_concave ha
            exact convexOn_sq_nonpos_on hc
              (fun ρ hρ => nonpos_of_mono_dec hm (hs ρ hρ))
        | UNKNOWN =>
            rw [hcc] at ha
            exact absurd ha (by cases hm : monoOfSign t.sg <;> decide)

theorem sSqrtEntry_sound {t : SEntry} (h : SoundEntry t) :
    SoundEntry (sSqrtEntry t) := by
  obtain ⟨hs, hc⟩ := h
  constructor
  · intro ρ hρ
    show SignMeans (squareSign t.sg) (Real.sqrt (t.fn ρ))
    cases hsg : t.sg with
    | ZERO =>
        show Real.sqrt (t.fn ρ) = 0
        have h0 := hs ρ hρ.1
        rw [hsg] at h0
        have h0' : t.fn ρ = 0 := h0
        rw [h0']
        exact Real.sqrt_zero
    | POSITIVE =>
        show (0 : ℝ) ≤ Real.sqrt (t.fn ρ)
        exact Real.sqrt_nonneg _
    | NEGATIVE =>
        show (0 : ℝ) ≤ Real.sqrt (t.fn ρ)
        exact Real.sqrt_nonneg _
    | UNKNOWN =>
        show (0 : ℝ) ≤ Real.sqrt (t.fn ρ)
        exact Real.sqrt_nonneg _
  · show CurvMeansOn (t.dm ∩ {ρ | 0 ≤ t.fn ρ})
      (curvApply CONCAVE [(t.cv, INCREASING)])
      (fun ρ => Real.sqrt (t.fn ρ))
    cases hv : curvApply CONCAVE [(t.cv, INCREASING)] with
    | CONSTANT =>
        obtain ⟨hb, _⟩ := curvApply_eq_CONSTANT hv
        exact absurd hb (by decide)
    | AFFINE =>
        obtain ⟨hb, _⟩ := curvApply_eq_AFFINE hv
        exact absurd hb (by decide)
    | CONVEX =>
        obtain ⟨hb, _⟩ := curvApply_eq_CONVEX hv
        exact absurd hb (by decide)
    | UNKNOWN => exact trivial
    | CONCAVE =>
        obtain ⟨_, hargs⟩ := curvApply_eq_CONCAVE hv
        rw [List.all_eq_true] at hargs
        have ha : ccvSlot (t.cv, INCREASING) = true :=
          hargs (t.cv, INCREASING) (by simp)
        rw [ccvSlot_inc] at ha
        exact concaveOn_sqrt_comp (ccvOn_of hc ha)

theorem signMeans_sum_fold (ρ : ℕ → ℝ) :
    ∀ (ts : List SEntry) (acc : Sign) (v : ℝ),
      SignMeans acc v → (∀ t ∈ ts, SignMeans t.sg (t.fn ρ)) →
      SignMeans (List.foldl sign_add acc (ts.map SEntry.sg))
        (v + (ts.map (fun u => u.fn ρ)).sum) := by
  intro ts
  induction ts with
  | nil =>
      intro acc v hv _
      simpa using hv
  | cons t ts ih =>
      intro acc v hv h
      have h1 := signMeans_add hv (h t (List.mem_cons_self t ts))
      have h2 := ih (sign_add acc t.sg) (v + t.fn ρ) h1
        (fun u hu => h u (List.mem_cons_of_mem t hu))
      have he : v + (t.fn ρ + ((ts.map (fun u => u.fn ρ)).sum)) =
          (v + t.fn ρ) + ((ts.map (fun u => u.fn ρ)).sum) := by ring
      rw [List.map_cons, List.foldl_cons, List.map_cons, List.sum_cons, he]
      exact h2

theorem sSumEntries_sound {ts : List SEntry} (h : ∀ t ∈ ts, SoundEntry t) :
    SoundEntry (sSumEntries ts) := by
  constructor
  · intro ρ hρ
    show SignMeans (sumSign (ts.map SEntry.sg)) ((ts.map (fun u => u.fn ρ)).sum)
    have hall : ∀ t ∈ ts, SignMeans t.sg (t.fn ρ) :=
      fun t ht => (h t ht).1 ρ (mem_domInter.1 hρ t ht)
    have h2 := signMeans_sum_fold ρ ts ZERO 0 rfl hall
    rw [zero_add] at h2
    exact h2
  · show CurvMeansOn (domInter ts)
      (curvApply AFFINE ((ts.map SEntry.cv).map (fun c => (c, INCREASING))))
      (fun ρ => (ts.map (fun u => u.fn ρ)).sum)
    cases hv : curvApply AFFINE ((ts.map SEntry.cv).map (fun c => (c, INCREASING))) with
    | CONSTANT =>
        obtain ⟨hb, _⟩ := curvApply_eq_CONSTANT hv
        exact absurd hb (by decide)
    | AFFINE =>
        obtain ⟨_, hargs⟩ := curvApply_eq_AFFINE hv
        rw [List.all_eq_true] at hargs
        have hsl : ∀ t ∈ ts, affSlot t.cv = true := by
          intro t ht
          exact hargs (t.cv, INCREASING)
            (List.mem_map_of_mem _ (List.mem_map_of_mem _ ht))
        have hD : Convex ℝ (domInter ts) :=
          convex_domInter (fun t ht =>
            curvMeansOn_convex_dom (h t ht).2 (affSlot_ne_unknown (hsl t ht)))
        have hone : ∀ t ∈ ts,
            ConvexOn ℝ (domInter ts) t.fn ∧ ConcaveOn ℝ (domInter ts) t.fn :=
          fun t ht => affOn_of
            (curvMeansOn_subset (h t ht).2 (domInter_subset ht) hD) (hsl t ht)
        exact ⟨convexOn_sum_entries hD ts (fun t ht => (hone t ht).1),
          concaveOn_sum_entries hD ts (fun t ht => (hone t ht).2)⟩
    | CONVEX =>
        obtain ⟨_, hargs⟩ := curvApply_eq_CONVEX hv
        rw [List.all_eq_true] at hargs
        have hsl : ∀ t ∈ ts, cvxBase t.cv = true := by
          intro t ht
          have h3 := hargs (t.cv, INCREASING)
            (List.mem_map_of_mem _ (List.mem_map_of_mem _ ht))
          rwa [cvxSlot_inc] at h3
        have hD : Convex ℝ (domInter ts) :=
          convex_domInter (fun t ht =>
            curvMeansOn_convex_dom (h t ht).2 (cvxBase_ne_unknown (hsl t ht)))
        exact convexOn_sum_entries hD ts (fun t ht =>
          cvxOn_of (curvMeansOn_subset (h t ht).2 (domInter_subset ht) hD)
            (hsl t ht))
    | CONCAVE =>
        obtain ⟨_, hargs⟩ := curvApply_eq_CONCAVE hv
        rw [List.all_eq_true] at hargs
        have hsl : ∀ t ∈ ts, ccvBase t.cv = true := by
          intro t ht
          have h3 := hargs (t.cv, INCREASING)
            (List.mem_map_of_mem _ (List.mem_map_of_mem _ ht))
          rwa [ccvSlot_inc] at h3
        have hD : Convex ℝ (domInter ts) :=
          convex_domInter (fun t ht =>
            curvMeansOn_convex_dom (h t ht).2 (ccvBase_ne_unknown (hsl t ht)))
        exact concaveOn_sum_entries hD ts (fun t ht =>
          ccvOn_of (curvMeansOn_subset (h t ht).2 (domInter_subset ht) hD)
            (hsl t ht))
    | UNKNOWN => exact trivial

theorem sEwNode_sound {op : String} {comb : SEntry → SEntry → SEntry}
    {a b : SAnn}
    (hcomb : ∀ t1 t2, SoundEntry t1 → SoundEntry t2 → SoundEntry (comb t1 t2))
    (ha : allG SoundEntry a.g) (hb : allG SoundEntry b.g) :
    ∀ s, sEwNode op comb a b = .ok s → allG SoundEntry s.g := by
  intro s hs
  unfold sEwNode at hs
  split_ifs at hs with h1 h2 h3
  · cases hs
    show allG SoundEntry (mapG (comb (entry00 a.g)) b.g)
    rw [allG_mapG]
    intro row hrow x hx
    exact hcomb _ _ (soundEntry_entry00 ha) (hb row hrow x hx)
  · cases hs
    show allG SoundEntry (mapG (fun t => comb t (entry00 b.g)) a.g)
    rw [allG_mapG]
    intro row hrow x hx
    exact hcomb _ _ (ha row hrow x hx) (soundEntry_entry00 hb)
  · cases hs
    show allG SoundEntry (zipG comb a.g b.g)
    exact allG_zipG comb a.g b.g (fun r1 hr1 r2 hr2 x hx y hy =>
      hcomb _ _ (ha r1 hr1 x hx) (hb r2 hr2 y hy))

theorem constAnn_or {a b : SAnn}
    (h1 : ¬(!isConstAnn (projAnn a) && !isConstAnn (projAnn b)) = true) :
    isConstAnn (projAnn a) = true ∨ isConstAnn (projAnn b) = true := by
  by_cases hA : isConstAnn (projAnn a) = true
  · exact Or.inl hA
  · right
    by_cases hB : isConstAnn (projAnn b) = true
    · exact hB
    · exfalso
      apply h1
      rw [Bool.not_eq_true] at hA hB
      rw [hA, hB]
      decide

theorem sMulNode_sound {a b : SAnn} (ha : allG SoundEntry a.g)
    (hb : allG SoundEntry b.g) :
    ∀ s, sMulNode a b = .ok s → allG SoundEntry s.g := by
  intro s hs
  unfold sMulNode at hs
  split_ifs at hs with h1 h2 h3 h4
  · have hconst := constAnn_or h1
    cases hs
    show allG SoundEntry (mapG (fun t => sMulEntry (entry00 a.g) t) b.g)
    rw [allG_mapG]
    intro row hrow x hx
    refine sMulEntry_sound (soundEntry_entry00 ha) (hb row hrow x hx) ?_
    rcases hconst with hcA | hcB
    · exact Or.inl (cv_entry00_const hcA)
    · exact Or.inr (cv_const_of_isConstAnn hcB row hrow x hx)
  · have hconst := constAnn_or h1
    cases hs
    show allG SoundEntry (mapG (fun t => sMulEntry t (entry00 b.g)) a.g)
    rw [allG_mapG]
    intro row hrow x hx
    refine sMulEntry_sound (ha row hrow x hx) (soundEntry_entry00 hb) ?_
    rcases hconst with hcA | hcB
    · exact Or.inl (cv_const_of_isConstAnn hcA row hrow x hx)
    · exact Or.inr (cv_entry00_const hcB)
  · have hconst := constAnn_or h1
    cases hs
    intro row' hrow' x hx
    rcases List.mem_map.1 hrow' with ⟨row, hrow, rfl⟩
    rcases List.mem_map.1 hx with ⟨col, hcol, rfl⟩
    refine sSumEntries_sound ?_
    intro t ht
    rcases all_of_mem_zipWith row col t ht with ⟨t1, ht1, t2, ht2, rfl⟩
    refine sMulEntry_sound (ha row hrow t1 ht1)
      (allG_transposeG hb col hcol t2 ht2) ?_
    rcases hconst with hcA | hcB
    · exact Or.inl (cv_const_of_isConstAnn hcA row hrow t1 ht1)
    · exact Or.inr (allG_transposeG (cv_const_of_isConstAnn hcB) col hcol t2 ht2)

theorem sDivNode_sound {a b : SAnn} (ha : allG SoundEntry a.g)
    (hb : allG SoundEntry b.g) :
    ∀ s, sDivNode a b = .ok s → allG SoundEntry s.g := by
  intro s hs
  unfold sDivNode at hs
  split_ifs at hs with h1
  cases hs
  show allG SoundEntry (mapG (fun t => sDivEntry t (entry00 b.g)) a.g)
  rw [allG_mapG]
  intro row hrow x hx
  have hb' : isConstAnn (projAnn b) = true := by
    cases hcB : isConstAnn (projAnn b) with
    | true => rfl
    | false =>
        exfalso
        apply h1
        rw [hcB, Bool.and_false]
        rfl
  exact sDivEntry_sound (ha row hrow x hx) (soundEntry_entry00 hb)
    (cv_entry00_const hb')

set_option maxHeartbeats 1000000 in
theorem sNorm2Node_sound {a : SAnn} (ha : allG SoundEntry a.g) :
    allG SoundEntry (sNorm2Node a).g := by
  intro row hrow x hx
  simp only [sNorm2Node, List.mem_singleton] at hrow
  subst hrow
  simp only [List.mem_singleton] at hx
  subst hx
  have hents : ∀ t ∈ entriesG a.g, SoundEntry t := by
    intro t ht
    rcases List.mem_flatten.1 ht with ⟨r, hr, htr⟩
    exact ha r hr t htr
  constructor
  · intro ρ hρ
    show (0 : ℝ) ≤ Real.sqrt (((entriesG a.g).map (fun u => u.fn ρ ^ 2)).sum)
    exact Real.sqrt_nonneg _
  · show CurvMeansOn (domInter (entriesG a.g))
      (curvApply CONVEX ((entriesG a.g).map (fun t => (t.cv, NONMONOTONE))))
      (fun ρ => Real.sqrt (((entriesG a.g).map (fun t => t.fn ρ ^ 2)).sum))
    cases hv : curvApply CONVEX ((entriesG a.g).map (fun t => (t.cv, NONMONOTONE))) with
    | CONSTANT =>
        obtain ⟨hb, _⟩ := curvApply_eq_CONSTANT hv
        exact absurd hb (by decide)
    | AFFINE =>
        obtain ⟨hb, _⟩ := curvApply_eq_AFFINE hv
        exact absurd hb (by decide)
    | CONCAVE =>
        obtain ⟨hb, _⟩ := curvApply_eq_CONCAVE hv
        exact absurd hb (by decide)
    | UNKNOWN => exact trivial
    | CONVEX =>
        obtain ⟨_, hargs⟩ := curvApply_eq_CONVEX hv
        rw [List.all_eq_true] at hargs
        have hsl : ∀ t ∈ entriesG a.g, affSlot t.cv = true := by
          intro t ht
          have h3 := hargs (t.cv, NONMONOTONE) (List.mem_map_of_mem _ ht)
          rwa [cvxSlot_nonmono] at h3
        have hD : Convex ℝ (domInter (entriesG a.g)) :=
          convex_domInter (fun t ht =>
            curvMeansOn_convex_dom (hents t ht).2 (affSlot_ne_unknown (hsl t ht)))
        exact convexOn_sqrt_sum_sq hD (entriesG a.g) (fun t ht =>
          affOn_of (curvMeansOn_subset (hents t ht).2 (domInter_subset ht) hD)
            (hsl t ht))

theorem sSumNode_sound {a : SAnn} (ha : allG SoundEntry a.g) :
    allG SoundEntry (sSumNode a).g := by
  intro row hrow x hx
  simp only [sSumNode, List.mem_singleton] at hrow
  subst hrow
  simp only [List.mem_singleton] at hx
  subst hx
  refine sSumEntries_sound ?_
  intro t ht
  rcases List.mem_flatten.1 ht with ⟨r, hr, htr⟩
  exact ha r hr t htr

theorem sSumAxisNode_sound (ax : Bool) {a : SAnn} (ha : allG SoundEntry a.g) :
    allG SoundEntry (sSumAxisNode ax a).g := by
  cases ax
  · intro row hrow x hx
    have he : (sSumAxisNode false a).g = [(transposeG a.g).map sSumEntries] := rfl
    rw [he] at hrow
    simp only [List.mem_singleton] at hrow
    subst hrow
    rcases List.mem_map.1 hx with ⟨col, hcol, rfl⟩
    refine sSumEntries_sound ?_
    intro t ht
    exact allG_transposeG ha col hcol t ht
  · intro row hrow x hx
    have he : (sSumAxisNode true a).g = a.g.map (fun r => [sSumEntries r]) := rfl
    rw [he] at hrow
    rcases List.mem_map.1 hrow with ⟨r, hr, rfl⟩
    simp only [List.mem_singleton] at hx
    subst hx
    refine sSumEntries_sound ?_
    intro t ht
    exact ha r hr t ht

theorem sVstack2Node_sound {a b : SAnn} (ha : allG SoundEntry a.g)
    (hb : allG SoundEntry b.g) :
    ∀ s, sVstack2Node a b = .ok s → allG SoundEntry s.g := by
  intro s hs
  unfold sVstack2Node at hs
  split_ifs at hs with h1
  cases hs
  intro row hrow x hx
  rcases List.mem_append.1 hrow with h | h
  · exact ha row h x hx
  · exact hb row h x hx

theorem sAnalyze_sound (π : Sign → ℝ) (hπ : ∀ u : Sign, SignMeans u (π u)) :
    ∀ e s, sAnalyze π e = .ok s → allG SoundEntry s.g := by
  intro e
  induction e with
  | const g =>
      intro s hs
      simp only [sAnalyze] at hs
      cases hs
      show allG SoundEntry
        (mapG (fun q => ⟨signConst q, CONSTANT, Set.univ, fun _ => (q : ℝ)⟩) g)
      rw [allG_mapG]
      intro row hrow x hx
      exact ⟨fun ρ _ => signMeans_signConst x, convex_univ, (x : ℝ), fun ρ _ => rfl⟩
  | param r c sg =>
      intro s hs
      simp only [sAnalyze] at hs
      cases hs
      show allG SoundEntry (uniformG r c ⟨sg, CONSTANT, Set.univ, fun _ => π sg⟩)
      intro row hrow x hx
      rcases List.eq_of_mem_replicate hrow with rfl
      rcases List.eq_of_mem_replicate hx with rfl
      exact ⟨fun ρ _ => hπ sg, convex_univ, π sg, fun ρ _ => rfl⟩
  | var r c =>
      intro s hs
      simp only [sAnalyze] at hs
      cases hs
      intro row hrow x hx
      rcases List.mem_map.1 hrow with ⟨i, hi, rfl⟩
      rcases List.mem_map.1 hx with ⟨j, hj, rfl⟩
      exact ⟨fun ρ _ => trivial, convexOn_eval _, concaveOn_eval _⟩
  | add a b iha ihb =>
      intro s hs
      simp only [sAnalyze] at hs
      cases hA : sAnalyze π a with
      | error e1 =>
          rw [hA] at hs
          cases hB : sAnalyze π b <;> rw [hB] at hs <;> cases hs
      | ok x =>
          rw [hA] at hs
          cases hB : sAnalyze π b with
          | error e2 =>
              rw [hB] at hs
              cases hs
          | ok y =>
              rw [hB] at hs
              exact sEwNode_sound (fun t1 t2 hh1 hh2 => sAddEntry_sound hh1 hh2)
                (iha x hA) (ihb y hB) s hs
  | sub a b iha ihb =>
      intro s hs
      simp only [sAnalyze] at hs
      cases hA : sAnalyze π a with
      | error e1 =>
          rw [hA] at hs
          cases hB : sAnalyze π b <;> rw [hB] at hs <;> cases hs
      | ok x =>
          rw [hA] at hs
          cases hB : sAnalyze π b with
          | error e2 =>
              rw [hB] at hs
              cases hs
          | ok y =>
              rw [hB] at hs
              exact sEwNode_sound (fun t1 t2 hh1 hh2 => sSubEntry_sound hh1 hh2)
                (iha x hA) (ihb y hB) s hs
  | mul a b iha ihb =>
      intro s hs
      simp only [sAnalyze] at hs
      cases hA : sAnalyze π a with
      | error e1 =>
          rw [hA] at hs
          cases hB : sAnalyze π b <;> rw [hB] at hs <;> cases hs
      | ok x =>
          rw [hA] at hs
          cases hB : sAnalyze π b with
          | error e2 =>
              rw [hB] at hs
              cases hs
          | ok y =>
              rw [hB] at hs
              exact sMulNode_sound (iha x hA) (ihb y hB) s hs
  | div a b iha ihb =>
      intro s hs
      simp only [sAnalyze] at hs
      cases hA : sAnalyze π a with
      | error e1 =>
          rw [hA] at hs
          cases hB : sAnalyze π b <;> rw [hB] at hs <;> cases hs
      | ok x =>
          rw [hA] at hs
          cases hB : sAnalyze π b with
          | error e2 =>
              rw [hB] at hs
              cases hs
          | ok y =>
              rw [hB] at hs
              exact sDivNode_sound (iha x hA) (ihb y hB) s hs
  | square a iha =>
      intro s hs
      simp only [sAnalyze] at hs
      cases hA : sAnalyze π a with
      | error e1 =>
          rw [hA] at hs
          cases hs
      | ok x =>
          rw [hA] at hs
          cases hs
          show allG SoundEntry (mapG sSquareEntry x.g)
          rw [allG_mapG]
          intro row hrow t ht
          exact sSquareEntry_sound (iha x hA row hrow t ht)
  | sqrt a iha =>
      intro s hs
      simp only [sAnalyze] at hs
      cases hA : sAnalyze π a with
      | error e1 =>
          rw [hA] at hs
          cases hs
      | ok x =>
          rw [hA] at hs
          cases hs
          show allG SoundEntry (mapG sSqrtEntry x.g)
          rw [allG_mapG]
          intro row hrow t ht
          exact sSqrtEntry_sound (iha x hA row hrow t ht)
  | norm2 a iha =>
      intro s hs
      simp only [sAnalyze] at hs
      cases hA : sAnalyze π a with
      | error e1 =>
          rw [hA] at hs
          cases hs
      | ok x =>
          rw [hA] at hs
          cases hs
          exact sNorm2Node_sound (iha x hA)
  | sumAll a iha =>
      intro s hs
      simp only [sAnalyze] at hs
      cases hA : sAnalyze π a with
      | error e1 =>
          rw [hA] at hs
          cases hs
      | ok x =>
          rw [hA] at hs
          cases hs
          exact sSumNode_sound (iha x hA)
  | sumAxis ax a iha =>
      intro s hs
      simp only [sAnalyze] at hs
      cases hA : sAnalyze π a with
      | error e1 =>
          rw [hA] at hs
          cases hs
      | ok x =>
          rw [hA] at hs
          cases hs
          exact sSumAxisNode_sound ax (iha x hA)
  | vstack2 a b iha ihb =>
      intro s hs
      simp only [sAnalyze] at hs
      cases hA : sAnalyze π a with
      | error e1 =>
          rw [hA] at hs
          cases hB : sAnalyze π b <;> rw [hB] at hs <;> cases hs
      | ok x =>
          rw [hA] at hs
          cases hB : sAnalyze π b with
          | error e2 =>
              rw [hB] at hs
              cases hs
          | ok y =>
              rw [hB] at hs
              exact sVstack2Node_sound (iha x hA) (ihb y hB) s hs

theorem piDemo_signs : ∀ u : Sign, SignMeans u (piDemo u) := by
  intro u
  cases u
  · show (0 : ℝ) ≤ 1
    norm_num
  · show (-1 : ℝ) ≤ 0
    norm_num
  · show (0 : ℝ) = 0
    rfl
  · exact trivial

/-- C1 (soundness): DCP analysis is sound over the whole modelled engine.
    For every parameter valuation π respecting the declared parameter signs
    and every expression e of the engine's language (constants, parameters,
    variables, +, -, *, /, square, sqrt, norm2, sums and vstack), the
    executable analyzer agrees entrywise with the semantic analysis
    (`analyze e` is exactly the sign/curvature projection of `sAnalyze π e`),
    and every entry the semantic analysis produces is sound on the entry's
    natural domain (the assignments making every sqrt argument below it
    nonnegative — the domain-aware reading sqrt requires): the reported
    POSITIVE/NEGATIVE/ZERO sign is true of the denoted value there, and the
    reported curvature is true of the denoted function there — CONSTANT
    means constant on a convex domain, AFFINE means convex and concave,
    CONVEX means truly convex (Mathlib `ConvexOn`), CONCAVE truly concave,
    and UNKNOWN promises nothing. -/
theorem claim1_soundness (π : Sign → ℝ) (hπ : ∀ u : Sign, SignMeans u (π u))
    (e : EExpr) :
    analyze e = (sAnalyze π e).map projAnn ∧
      ∀ s, sAnalyze π e = .ok s → allG SoundEntry s.g :=
  ⟨analyze_eq_proj π e, fun s hs => sAnalyze_sound π hπ e s hs⟩

theorem claim1_soundness_witness :
    (∀ u : Sign, SignMeans u (piDemo u)) ∧
      (analyze eDemo = (sAnalyze piDemo eDemo).map projAnn ∧
        ∀ s, sAnalyze piDemo eDemo = .ok s → allG SoundEntry s.g) :=
  ⟨piDemo_signs, claim1_soundness piDemo piDemo_signs eDemo⟩

end DCP
